import Mathlib

/-!
# Multipart codec of `server.js`

A shallow embedding of `parseMultipart` and `buildMultipart` from `src/server.js`.

* A `Buffer` is a list of byte values (naturals below 256).
* A JavaScript string is a list of UTF-16 code units (naturals below 65536).
* `Buffer.from(string)` is UTF-8 encoding (`utf8Encode`), `buf.toString()` is UTF-8
  decoding with U+FFFD replacement (`utf8Decode`).
* Indices are integers, as in JavaScript: `indexOf` answers `-1` when nothing is found and
  `slice` accepts negative and out-of-range bounds.
* The `while` loop of `parseMultipart` is run with fuel; `parseMultipart` gives the loop
  as much fuel as the buffer has bytes plus one and answers `none` only if that runs out.
-/

namespace Polyfun

/-- A Node.js `Buffer`: a sequence of bytes. -/
abbrev Buffer := List Nat

/-- A JavaScript string: a sequence of UTF-16 code units. -/
abbrev JSString := List Nat

/-- The code units of a text literal of the source (all literals of the source are ASCII). -/
def str (s : String) : JSString := s.toList.map Char.toNat

/-! ## UTF-8 -/

/-- The UTF-8 bytes of one UTF-16 code unit that is not read as part of a surrogate pair; a
surrogate is then unpaired and gives U+FFFD (`EF BF BD`). -/
def encodeUnit (u : Nat) : Buffer :=
  if u < 0x80 then [u]
  else if u < 0x800 then [0xC0 + u / 64, 0x80 + u % 64]
  else if 0xD800 ≤ u ∧ u ≤ 0xDFFF then [0xEF, 0xBF, 0xBD]
  else [0xE0 + u / 4096, 0x80 + u / 64 % 64, 0x80 + u % 64]

/-- The UTF-8 bytes of the code point of the surrogate pair `hi`, `lo`. -/
def encodePair (hi lo : Nat) : Buffer :=
  let cp := 0x10000 + (hi - 0xD800) * 1024 + (lo - 0xDC00)
  [0xF0 + cp / 262144, 0x80 + cp / 4096 % 64, 0x80 + cp / 64 % 64, 0x80 + cp % 64]

/-- The bytes `Buffer.from(s)` gives for a string `s`: the UTF-8 encoding of its UTF-16 code
units. -/
def utf8Encode : JSString → Buffer
  | [] => []
  | [u] => encodeUnit u
  | u :: l :: rest =>
    if (0xD800 ≤ u ∧ u ≤ 0xDBFF) ∧ (0xDC00 ≤ l ∧ l ≤ 0xDFFF) then
      encodePair u l ++ utf8Encode rest
    else encodeUnit u ++ utf8Encode (l :: rest)

/-- A code unit that is a character by itself: not a surrogate. -/
def isScalarUnit (u : Nat) : Bool := decide (u < 0xD800 ∨ (0xE000 ≤ u ∧ u < 0x10000))

/-- Well-formed UTF-16: every surrogate is part of a pair, a high surrogate followed by a low
one. -/
def wellFormed : JSString → Bool
  | [] => true
  | [u] => isScalarUnit u
  | u :: l :: rest =>
    if (0xD800 ≤ u ∧ u ≤ 0xDBFF) ∧ (0xDC00 ≤ l ∧ l ≤ 0xDFFF) then wellFormed rest
    else isScalarUnit u && wellFormed (l :: rest)

/-- State of the UTF-8 decoder between two bytes: how many continuation bytes are still
needed, the code point accumulated so far, and the range allowed for the next byte. -/
structure DecState where
  needed : Nat
  cp : Nat
  lower : Nat
  upper : Nat
  deriving DecidableEq, Repr

/-- The decoder state between two characters. -/
def DecState.init : DecState := ⟨0, 0, 0x80, 0xBF⟩

/-- The UTF-16 code units of a code point. -/
def codeUnits (cp : Nat) : JSString :=
  if cp < 0x10000 then [cp]
  else [0xD800 + (cp - 0x10000) / 1024, 0xDC00 + (cp - 0x10000) % 1024]

/-- The decoder reads byte `b` with no character pending: what it emits and its next state. -/
def startByte (b : Nat) : JSString × DecState :=
  if b < 0x80 then ([b], DecState.init)
  else if 0xC2 ≤ b ∧ b ≤ 0xDF then ([], ⟨1, b % 32, 0x80, 0xBF⟩)
  else if 0xE0 ≤ b ∧ b ≤ 0xEF then
    ([], ⟨2, b % 16, if b = 0xE0 then 0xA0 else 0x80, if b = 0xED then 0x9F else 0xBF⟩)
  else if 0xF0 ≤ b ∧ b ≤ 0xF4 then
    ([], ⟨3, b % 8, if b = 0xF0 then 0x90 else 0x80, if b = 0xF4 then 0x8F else 0xBF⟩)
  else ([0xFFFD], DecState.init)

/-- The UTF-8 decoder run from state `st`, as the WHATWG Encoding standard describes it and
as `buf.toString()` behaves: an ill-formed sequence gives one U+FFFD and the offending byte is
read again as the start of a character. -/
def utf8DecodeFrom : Buffer → DecState → JSString
  | [], st => if st.needed = 0 then [] else [0xFFFD]
  | b :: bs, st =>
    match st.needed with
    | 0 => (startByte b).1 ++ utf8DecodeFrom bs (startByte b).2
    | n + 1 =>
      if st.lower ≤ b ∧ b ≤ st.upper then
        if n = 0 then codeUnits (st.cp * 64 + b % 64) ++ utf8DecodeFrom bs DecState.init
        else utf8DecodeFrom bs ⟨n, st.cp * 64 + b % 64, 0x80, 0xBF⟩
      else 0xFFFD :: ((startByte b).1 ++ utf8DecodeFrom bs (startByte b).2)

/-- The string `buf.toString()` gives: UTF-8 decoding. -/
def utf8Decode (buf : Buffer) : JSString := utf8DecodeFrom buf DecState.init

/-! ## Buffer primitives -/

/-- Index of the first occurrence of `value` in `buf`, if there is one. -/
def findIdx (value : Buffer) : Buffer → Option Nat
  | [] => if value.isPrefixOf [] then some 0 else none
  | b :: bs => if value.isPrefixOf (b :: bs) then some 0 else (findIdx value bs).map (· + 1)

/-- The result of `buf.indexOf(value, byteOffset)`: the index of the first occurrence of `value` at or after
`byteOffset`, or `-1`.  A negative offset counts from the end of the buffer. -/
def indexOf (buf value : Buffer) (byteOffset : Int) : Int :=
  let off : Int := if byteOffset < 0 then max (byteOffset + buf.length) 0 else min byteOffset buf.length
  match findIdx value (buf.drop off.toNat) with
  | some i => off + i
  | none => -1

/-- A `slice` bound brought into `0 .. len`: a negative bound counts from the end. -/
def relIndex (len : Nat) (i : Int) : Nat :=
  if i < 0 then (max (i + len) 0).toNat else (min i len).toNat

/-- The result of `buf.slice(start, end)`: the bytes from `start` up to `end`, empty when `end ≤ start`. -/
def slice (buf : Buffer) (start stop : Int) : Buffer :=
  (buf.drop (relIndex buf.length start)).take
    (relIndex buf.length stop - relIndex buf.length start)

/-! ## The regular expressions of `parseMultipart` -/

/-- The first position of `s` at which the anchored matcher `m` succeeds, as `String.match`
does for a regular expression without the global flag. -/
def matchFirst (m : JSString → Option JSString) : JSString → Option JSString
  | [] => m []
  | c :: s =>
    match m (c :: s) with
    | some r => some r
    | none => matchFirst m s

/-- The pattern `key([^"]+)"` matched at the head of `s`: the capture is the longest run of
characters other than the quote, which must be non-empty and followed by a quote. -/
def quotedAt (key : JSString) (s : JSString) : Option JSString :=
  if key.isPrefixOf s then
    let run := (s.drop key.length).takeWhile (· ≠ 34)
    match (s.drop key.length).drop run.length with
    | 34 :: _ => if run ≠ [] then some run else none
    | _ => none
  else none

/-- The pattern `key([^\r\n]+)` matched at the head of `s`: the capture is the longest run of
characters other than CR and LF, which must be non-empty. -/
def lineAt (key : JSString) (s : JSString) : Option JSString :=
  if key.isPrefixOf s then
    let run := (s.drop key.length).takeWhile (fun c => c ≠ 13 ∧ c ≠ 10)
    if run ≠ [] then some run else none
  else none

/-- The capture of `/name="([^"]+)"/`. -/
def nameMatch (headers : JSString) : Option JSString :=
  matchFirst (quotedAt [110, 97, 109, 101, 61, 34]) headers

/-- The capture of `/filename="([^"]+)"/`. -/
def filenameMatch (headers : JSString) : Option JSString :=
  matchFirst (quotedAt [102, 105, 108, 101, 110, 97, 109, 101, 61, 34]) headers

/-- The capture of `/Content-Type: ([^\r\n]+)/`. -/
def contentTypeMatch (headers : JSString) : Option JSString :=
  matchFirst (lineAt [67, 111, 110, 116, 101, 110, 116, 45, 84, 121, 112, 101, 58, 32]) headers

/-! ## Parts -/

/-- One part of a multipart body.  `none` is JavaScript's `null`. -/
structure Part where
  name : JSString
  filename : Option JSString
  contentType : Option JSString
  data : Buffer
  deriving DecidableEq, Repr

/-- JavaScript truthiness of a value that is a string or `null`: `null` and the empty string
are falsy. -/
def truthy : Option JSString → Bool
  | none => false
  | some s => !s.isEmpty

/-! ## `parseMultipart` -/

/-- The four bytes CR LF CR LF. -/
def crlfcrlf : Buffer := [13, 10, 13, 10]

/-- The delimiter `boundaryBuffer`, which is `Buffer.from('--' + boundary)`. -/
def boundaryBuffer (boundary : JSString) : Buffer := utf8Encode ([45, 45] ++ boundary)

/-- One iteration of the `while` loop: the cursor `start`, the delimiter index `endIdx`, the
raw span `part`, the index `headerEnd` of its header/body separator, and what was pushed. -/
structure Step where
  start : Int
  endIdx : Int
  part : Buffer
  headerEnd : Int
  pushed : Option Part
  deriving DecidableEq, Repr

/-- What the body of the loop pushes for the raw span `part`. -/
def parsePart (part : Buffer) : Option Part :=
  let headerEnd := indexOf part crlfcrlf 0
  if headerEnd ≠ -1 then
    let headers := utf8Decode (slice part 0 headerEnd)
    let content := slice part (headerEnd + 4) part.length
    match nameMatch headers with
    | some name =>
      some { name := name, filename := filenameMatch headers,
             contentType := contentTypeMatch headers, data := content }
    | none => none
  else none

/-- The `while (start < buffer.length)` loop, one iteration per unit of fuel; `none` when the
fuel runs out before the loop ends. -/
def parseLoop (buffer bb : Buffer) : Nat → Int → Option (List Step)
  | 0, start => if start < buffer.length then none else some []
  | fuel + 1, start =>
    if start < buffer.length then
      let endIdx := indexOf buffer bb start
      if endIdx = -1 then some []
      else
        let part := slice buffer start (endIdx - 2)
        (parseLoop buffer bb fuel (endIdx + bb.length + 2)).map
          (fun steps => ⟨start, endIdx, part, indexOf part crlfcrlf 0, parsePart part⟩ :: steps)
    else some []

/-- The iterations `parseMultipart` goes through. -/
def parseSteps (buffer : Buffer) (boundary : JSString) : Option (List Step) :=
  parseLoop buffer (boundaryBuffer boundary) (buffer.length + 1)
    (indexOf buffer (boundaryBuffer boundary) 0 + (boundaryBuffer boundary).length + 2)

/-- The result of `parseMultipart(buffer, boundary)`: the parts pushed, in order. -/
def parseMultipart (buffer : Buffer) (boundary : JSString) : Option (List Part) :=
  (parseSteps buffer boundary).map (fun steps => steps.filterMap Step.pushed)

/-! ## `buildMultipart` -/

/-- The chunks the body of the `for` loop pushes for one part. -/
def partChunks (boundary : JSString) (part : Part) : List Buffer :=
  [utf8Encode ([45, 45] ++ boundary ++ [13, 10])] ++
  (if truthy part.filename then
    [utf8Encode (str "Content-Disposition: form-data; name=\"" ++ part.name ++
        str "\"; filename=\"" ++ part.filename.getD [] ++ str "\"\r\n")] ++
    (if truthy part.contentType then
      [utf8Encode (str "Content-Type: " ++ part.contentType.getD [] ++ str "\r\n")]
    else [])
  else
    [utf8Encode (str "Content-Disposition: form-data; name=\"" ++ part.name ++ str "\"\r\n")]) ++
  [utf8Encode (str "\r\n"), part.data, utf8Encode (str "\r\n")]

/-- The result of `buildMultipart(parts, boundary)`: the chunks of every part, then the closing marker,
concatenated. -/
def buildMultipart (parts : List Part) (boundary : JSString) : Buffer :=
  ((parts.foldl (fun chunks part => chunks ++ partChunks boundary part) []) ++
    [utf8Encode ([45, 45] ++ boundary ++ str "--\r\n")]).flatten

/-! ## The iterations of the loop -/

/-- The last occurrence of `value` in `buf` starts at index `e`. -/
def LastOccurrenceAt (value buf : Buffer) (e : Nat) : Prop :=
  value <+: buf.drop e ∧ ∀ j, e < j → ¬ value <+: buf.drop j

/-- What holds of an iteration of the loop over `buffer` with delimiter `bb`: the cursor is
inside the buffer, `endIdx` is the delimiter found from it and lies at or after it, every slice
taken has bounds between `0` and the length of what is sliced, and the fields are those the
loop body computes. -/
def Step.InRange (buffer bb : Buffer) (st : Step) : Prop :=
  0 ≤ st.start ∧ st.start < buffer.length ∧
  st.endIdx = indexOf buffer bb st.start ∧ st.start ≤ st.endIdx ∧
  st.endIdx + bb.length ≤ buffer.length ∧
  0 ≤ st.endIdx - 2 ∧ st.endIdx - 2 ≤ buffer.length ∧
  st.part = slice buffer st.start (st.endIdx - 2) ∧
  st.headerEnd = indexOf st.part crlfcrlf 0 ∧
  (st.headerEnd = -1 ∨ (0 ≤ st.headerEnd ∧ st.headerEnd + 4 ≤ st.part.length)) ∧
  st.pushed = parsePart st.part

/-- The cursor of the next iteration: past the delimiter found and two more bytes. -/
def Step.next (bb : Buffer) (st : Step) : Int := st.endIdx + bb.length + 2

/-! ## The output format of the encoder, as described -/

/-- A line of text as bytes, followed by CR LF. -/
def specLine (text : JSString) : Buffer := utf8Encode text ++ [13, 10]

/-- The block of one part in the described output format: the delimiter line, the
`Content-Disposition` line with the filename attribute when the filename is present, the
`Content-Type` line when both filename and content type are present, an empty line, the data
and CR LF.  `present` says when an optional field counts as present. -/
def specBlock (present : Option JSString → Bool) (boundary : JSString) (p : Part) : Buffer :=
  specLine (str "--" ++ boundary) ++
  specLine (str "Content-Disposition: form-data; name=\"" ++ p.name ++ str "\"" ++
    (if present p.filename then str "; filename=\"" ++ p.filename.getD [] ++ str "\"" else [])) ++
  (if present p.filename && present p.contentType then
    specLine (str "Content-Type: " ++ p.contentType.getD [])
  else []) ++
  [13, 10] ++ p.data ++ [13, 10]

/-- The described output: one block per part, in order, then the closing marker line. -/
def specEncode (present : Option JSString → Bool) (parts : List Part) (boundary : JSString) :
    Buffer :=
  parts.flatMap (specBlock present boundary) ++ specLine (str "--" ++ boundary ++ str "--")

/-! ## What `buildMultipart` writes for one part -/

/-- The header text of a part as `buildMultipart` writes it, without the CR LF that ends its
last line: the `Content-Disposition` line and, for a part with a filename and a content type,
the `Content-Type` line. -/
def headerText (p : Part) : JSString :=
  str "Content-Disposition: form-data; name=\"" ++ p.name ++
    (if truthy p.filename then
      str "\"; filename=\"" ++ p.filename.getD [] ++ str "\"" ++
        (if truthy p.contentType then str "\r\nContent-Type: " ++ p.contentType.getD [] else [])
    else str "\"")

/-- The bytes `buildMultipart` writes for a part between its delimiter line and the CR LF
before the next delimiter: header, empty line, data. -/
def partBody (p : Part) : Buffer := utf8Encode (headerText p) ++ crlfcrlf ++ p.data

/-- What a part is read back as: an empty filename or content type is not written, and a
content type is written only next to a filename. -/
def roundTripped (p : Part) : Part :=
  { name := p.name
    filename := if truthy p.filename then p.filename else none
    contentType := if truthy p.filename && truthy p.contentType then p.contentType else none
    data := p.data }

/-- The `Content-Disposition` line `buildMultipart` writes for a part, without its CR LF. -/
def firstLine (p : Part) : JSString :=
  str "Content-Disposition: form-data; name=\"" ++ p.name ++
    (if truthy p.filename then str "\"; filename=\"" ++ p.filename.getD [] ++ str "\""
    else str "\"")

/-- Conditions on the header fields of a part under which `parseMultipart` reads its header
back.  The name is a non-empty ASCII string without quote that does not contain CR LF CR LF.
When a filename is written, it is an ASCII string without quote that does not contain
CR LF CR LF, and the name does not end with `filename=` unless the filename is `; filename=`.
When a content type is written, it is well-formed UTF-16 without CR or LF.  If the pattern
`/Content-Type: ([^\r\n]+)/` matches in the `Content-Disposition` line written for the part,
what it captures there is the content type written for the part. -/
def Part.HeaderSafe (p : Part) : Prop :=
  p.name ≠ [] ∧ (∀ u ∈ p.name, u < 0x80 ∧ u ≠ 34) ∧ ¬ str "\r\n\r\n" <:+: p.name ∧
  (truthy p.filename = true →
    (∀ u ∈ p.filename.getD [], u < 0x80 ∧ u ≠ 34) ∧
    ¬ str "\r\n\r\n" <:+: p.filename.getD [] ∧
    (str "filename=" <:+ p.name → p.filename.getD [] = str "; filename=") ∧
    (truthy p.contentType = true →
      wellFormed (p.contentType.getD []) = true ∧
      13 ∉ p.contentType.getD [] ∧ 10 ∉ p.contentType.getD [])) ∧
  (∀ c ∈ contentTypeMatch (firstLine p),
    truthy p.filename = true ∧ truthy p.contentType = true ∧ p.contentType = some c)

instance (p : Part) : Decidable p.HeaderSafe := by
  unfold Part.HeaderSafe
  infer_instance

/-- No occurrence of the delimiter begins inside what is written for the part: searching the
bytes of the part followed by CR LF and a delimiter finds that delimiter first. -/
def Part.DelimiterSafe (boundary : JSString) (p : Part) : Prop :=
  indexOf (partBody p ++ [13, 10] ++ boundaryBuffer boundary) (boundaryBuffer boundary) 0 =
    ((partBody p).length + 2 : Nat)

instance (boundary : JSString) (p : Part) : Decidable (p.DelimiterSafe boundary) := by
  unfold Part.DelimiterSafe
  infer_instance

/-- What follows the first delimiter in the output of `buildMultipart`. -/
def afterDelimiter (boundary : JSString) : List Part → Buffer
  | [] => [45, 45, 13, 10]
  | p :: ps =>
    [13, 10] ++ partBody p ++ [13, 10] ++ boundaryBuffer boundary ++ afterDelimiter boundary ps

/-- An ASCII letter or digit. -/
def isAlnum (u : Nat) : Bool :=
  decide ((48 ≤ u ∧ u ≤ 57) ∨ (65 ≤ u ∧ u ≤ 90) ∨ (97 ≤ u ∧ u ≤ 122))

/-- A part with plain fields for the boundary `B`: the name is a non-empty string of ASCII
letters and digits, the filename is absent or a non-empty string of ASCII letters, digits and
dots, the content type is absent or a non-empty string without CR, LF or an occurrence of
`--B`, and the data has no occurrence of the bytes of `--B`. -/
def Part.Plain (boundary : JSString) (p : Part) : Prop :=
  (p.name ≠ [] ∧ ∀ u ∈ p.name, isAlnum u = true) ∧
  (∀ f ∈ p.filename, f ≠ [] ∧ ∀ u ∈ f, isAlnum u = true ∨ u = 46) ∧
  (∀ c ∈ p.contentType, c ≠ [] ∧ 13 ∉ c ∧ 10 ∉ c ∧ ¬ ([45, 45] ++ boundary) <:+: c) ∧
  ¬ boundaryBuffer boundary <:+: p.data

instance (boundary : JSString) (p : Part) : Decidable (p.Plain boundary) := by
  unfold Part.Plain
  infer_instance

/-- What a part with plain fields is read back as: the content type is kept when the filename
is present and absent otherwise. -/
def gateContentType (p : Part) : Part :=
  { p with contentType := if p.filename.isSome then p.contentType else none }

/-! ## Sample inputs -/

/-- A body with one part named `a` carrying the data `hi`, for the boundary `x`. -/
def sampleBody : Buffer :=
  utf8Encode (str "--x\r\nContent-Disposition: form-data; name=\"a\"\r\n\r\nhi\r\n--x--\r\n")

/-- The bytes of `sampleBody` up to its last delimiter, followed by two other bytes. -/
def sampleTruncated : Buffer :=
  utf8Encode (str "--x\r\nContent-Disposition: form-data; name=\"a\"\r\n\r\nhi\r\n--xzz")

/-- A body whose only span, `abc`, has no empty line. -/
def sampleNoSeparator : Buffer := utf8Encode (str "--x\r\nabc\r\n--x--\r\n")

/-- A body whose only header block has a `filename` attribute and no `name` attribute. -/
def sampleNoName : Buffer :=
  utf8Encode (str "--x\r\nContent-Disposition: form-data; filename=\"f.png\"\r\n\r\nhi\r\n--x--\r\n")

/-- A body whose first span, `abc`, has no empty line and whose second span is a part named
`a` carrying the data `hi`. -/
def sampleSkipped : Buffer :=
  utf8Encode (str "--x\r\nabc\r\n--x\r\nContent-Disposition: form-data; name=\"a\"\r\n\r\nhi\r\n--x--\r\n")

/-- The iteration of the loop over `sampleSkipped` for the span `abc`. -/
def sampleSpanStep : Step := ⟨5, 10, str "abc", -1, none⟩

/-- The iteration of the loop over `sampleSkipped` for the part named `a`. -/
def sampleSkippedStep : Step :=
  ⟨15, 63, utf8Encode (str "Content-Disposition: form-data; name=\"a\"\r\n\r\nhi"), 40,
    some ⟨str "a", none, none, str "hi"⟩⟩

/-- A body with one part named `a` whose data, `hi CR LF CR LF yo`, has an empty line. -/
def sampleBlankInData : Buffer :=
  utf8Encode (str "--x\r\nContent-Disposition: form-data; name=\"a\"\r\n\r\nhi\r\n\r\nyo\r\n--x--\r\n")

/-- Parts that are read back: a file with binary data, a field with a content type, a field
with an empty filename, a part with CR and LF in its name and filename, a part whose name holds
a `Content-Type: ` match that captures the content type written, a part whose name ends with
`filename=` and whose filename is `; filename=`. -/
def sampleParts : List Part :=
  [⟨str "a", some (str "f.png"), some (str "image/png"), [0, 13, 10, 255]⟩,
    ⟨str "b c", none, some (str "x"), [13, 10, 13, 10]⟩, ⟨str "d", some [], none, []⟩,
    ⟨str "a\rb\r\nc", some (str "f\r\ng"), some (str "t"), str "hi"⟩,
    ⟨str "Content-Type: z\rq", some (str "f"), some (str "z"), []⟩,
    ⟨str "xfilename=", some (str "; filename="), none, [1]⟩]

/-- Three parts with plain fields: a file whose content type has non-ASCII characters and
whose data has CR LF and a zero byte, a field with a content type, a field without. -/
def samplePlainParts : List Part :=
  [⟨str "a", some (str "f.png"), some [105, 0x20AC, 0xD83D, 0xDE00], [0, 13, 10, 255]⟩,
    ⟨str "b", none, some (str "x"), [13, 10, 13, 10]⟩, ⟨str "c", none, none, []⟩]

/-! ## Searching a buffer -/

theorem findIdx_eq_some_iff (v : Buffer) : ∀ (l : Buffer) (i : Nat),
    findIdx v l = some i ↔ (i ≤ l.length ∧ v <+: l.drop i ∧ ∀ j < i, ¬ v <+: l.drop j)
  | [], i => by
    simp only [findIdx, List.isPrefixOf_iff_prefix, List.drop_nil, List.length_nil]
    by_cases h : v <+: []
    · simp only [h, if_true, Option.some.injEq]
      constructor
      · rintro rfl; simp
      · rintro ⟨h0, _, _⟩; omega
    · simp [h]
  | b :: bs, i => by
    simp only [findIdx, List.isPrefixOf_iff_prefix]
    by_cases h : v <+: b :: bs
    · simp only [h, if_true, Option.some.injEq]
      constructor
      · rintro rfl; simp [h]
      · rintro ⟨_, _, h3⟩
        by_contra hne
        exact h3 0 (by omega) (by simpa using h)
    · simp only [h, if_false, Option.map_eq_some']
      constructor
      · rintro ⟨k, hk, rfl⟩
        obtain ⟨h1, h2, h3⟩ := (findIdx_eq_some_iff v bs k).1 hk
        refine ⟨by simpa using h1, by simpa using h2, ?_⟩
        intro j hj
        cases j with
        | zero => simpa using h
        | succ j => simpa using h3 j (by omega)
      · rintro ⟨h1, h2, h3⟩
        cases i with
        | zero => exact absurd (by simpa using h2) h
        | succ k =>
          refine ⟨k, (findIdx_eq_some_iff v bs k).2 ⟨by simpa using h1, by simpa using h2, ?_⟩, rfl⟩
          intro j hj
          simpa using h3 (j + 1) (by omega)

theorem infix_iff_exists_drop (v l : List Nat) :
    v <:+: l ↔ ∃ j, j ≤ l.length ∧ v <+: l.drop j := by
  constructor
  · rintro ⟨s, t, rfl⟩
    exact ⟨s.length, by simp, by simp [List.append_assoc]⟩
  · rintro ⟨j, _, hj⟩
    exact List.infix_iff_prefix_suffix.2 ⟨_, hj, List.drop_suffix j l⟩

theorem findIdx_eq_none_iff (v : Buffer) : ∀ (l : Buffer), findIdx v l = none ↔ ¬ v <:+: l
  | [] => by
    simp only [findIdx, List.isPrefixOf_iff_prefix]
    by_cases h : v <+: []
    · simp [h, h.isInfix]
    · simp only [h, if_false, true_iff]
      intro h2
      exact h (by simpa using h2)
  | b :: bs => by
    simp only [findIdx, List.isPrefixOf_iff_prefix, List.infix_cons_iff]
    by_cases h : v <+: b :: bs
    · simp [h]
    · simp [h, findIdx_eq_none_iff v bs]

theorem indexOf_natCast (buf v : Buffer) (k : Nat) (hk : k ≤ buf.length) :
    indexOf buf v (k : Int) =
      match findIdx v (buf.drop k) with
      | some i => ((k + i : Nat) : Int)
      | none => -1 := by
  unfold indexOf
  have h1 : ¬ ((k : Int) < 0) := by omega
  have h2 : min (k : Int) (buf.length : Int) = (k : Int) := by omega
  simp only [h1, if_false, h2, Int.toNat_ofNat]
  cases findIdx v (List.drop k buf) <;> simp

theorem indexOf_eq_neg_one_iff (buf v : Buffer) (k : Nat) (hk : k ≤ buf.length) :
    indexOf buf v (k : Int) = -1 ↔ ¬ v <:+: buf.drop k := by
  rw [indexOf_natCast buf v k hk, ← findIdx_eq_none_iff]
  cases h : findIdx v (List.drop k buf) with
  | none => simp
  | some i =>
    simp only [reduceCtorEq, iff_false]

theorem indexOf_eq_natCast_iff (buf v : Buffer) (k n : Nat) (hk : k ≤ buf.length) :
    indexOf buf v (k : Int) = (n : Int) ↔
      k ≤ n ∧ n ≤ buf.length ∧ v <+: buf.drop n ∧ ∀ j, k ≤ j → j < n → ¬ v <+: buf.drop j := by
  rw [indexOf_natCast buf v k hk]
  cases h : findIdx v (List.drop k buf) with
  | none =>
    simp only [reduceCtorEq, false_iff, not_and, not_forall]
    intro h1 h2 h3
    have := (findIdx_eq_none_iff v _).1 h
    exfalso
    apply this
    have h4 : List.drop n buf <:+ List.drop k buf := List.drop_suffix_drop_left buf h1
    exact List.infix_iff_prefix_suffix.2 ⟨_, h3, h4⟩
  | some i =>
    obtain ⟨a1, a2, a3⟩ := (findIdx_eq_some_iff v _ i).1 h
    simp only [List.length_drop, List.drop_drop] at a1 a2 a3
    simp only [Nat.cast_inj]
    constructor
    · rintro rfl
      refine ⟨by omega, by omega, by simpa [Nat.add_comm] using a2, ?_⟩
      intro j hj1 hj2
      have := a3 (j - k) (by omega)
      rwa [show k + (j - k) = j by omega] at this
    · rintro ⟨b1, b2, b3, b4⟩
      by_contra hne
      rcases Nat.lt_or_gt_of_ne hne with hlt | hgt
      · exact b4 (k + i) (by omega) hlt (by simpa using a2)
      · have := a3 (n - k) (by omega)
        rw [show k + (n - k) = n by omega] at this
        exact this b3

theorem indexOf_cases (buf v : Buffer) (k : Nat) (hk : k ≤ buf.length) :
    indexOf buf v (k : Int) = -1 ∨ ∃ n : Nat, indexOf buf v (k : Int) = (n : Int) := by
  rw [indexOf_natCast buf v k hk]
  cases findIdx v (List.drop k buf) with
  | none => exact Or.inl rfl
  | some i => exact Or.inr ⟨k + i, rfl⟩

theorem relIndex_natCast (len n : Nat) : relIndex len (n : Int) = min n len := by
  unfold relIndex
  have h1 : ¬ ((n : Int) < 0) := by omega
  simp only [h1, if_false]
  omega

theorem slice_natCast (buf : Buffer) (s e : Nat) :
    slice buf (s : Int) (e : Int) = (buf.drop s).take (e - s) := by
  unfold slice
  rw [relIndex_natCast, relIndex_natCast]
  by_cases hs : s ≤ buf.length
  · rw [Nat.min_eq_left hs]
    by_cases he : e ≤ buf.length
    · rw [Nat.min_eq_left he]
    · rw [Nat.min_eq_right (by omega)]
      rw [List.take_of_length_le (by simp), List.take_of_length_le (by simp; omega)]
  · rw [List.drop_of_length_le (by omega), List.drop_of_length_le (by omega)]
    simp

theorem utf8Encode_cons_of_lt (u : Nat) (s : JSString) (hu : u < 0x80) :
    utf8Encode (u :: s) = u :: utf8Encode s := by
  cases s with
  | nil => simp [utf8Encode, encodeUnit, hu]
  | cons l rest =>
    have h : ¬ ((0xD800 ≤ u ∧ u ≤ 0xDBFF) ∧ (0xDC00 ≤ l ∧ l ≤ 0xDFFF)) := by omega
    simp [utf8Encode, encodeUnit, hu, h]

theorem boundaryBuffer_eq (B : JSString) : boundaryBuffer B = 45 :: 45 :: utf8Encode B := by
  simp [boundaryBuffer, utf8Encode_cons_of_lt]

theorem boundaryBuffer_length (B : JSString) : 2 ≤ (boundaryBuffer B).length := by
  simp [boundaryBuffer_eq]

theorem parseLoop_of_ge (buf bb : Buffer) (fuel : Nat) (k : Int) (hk : (buf.length : Int) ≤ k) :
    parseLoop buf bb fuel k = some [] := by
  have h : ¬ (k < (buf.length : Int)) := by omega
  cases fuel <;> simp [parseLoop, h]

theorem parseLoop_of_not_found (buf bb : Buffer) (fuel : Nat) (k : Int)
    (he : indexOf buf bb k = -1) : parseLoop buf bb (fuel + 1) k = some [] := by
  simp [parseLoop, he]

theorem parseLoop_of_found (buf bb : Buffer) (fuel : Nat) (k e : Int)
    (hk : k < (buf.length : Int)) (he : indexOf buf bb k = e) (hne : e ≠ -1) :
    parseLoop buf bb (fuel + 1) k =
      (parseLoop buf bb fuel (e + bb.length + 2)).map
        (fun steps => ⟨k, e, slice buf k (e - 2), indexOf (slice buf k (e - 2)) crlfcrlf 0,
          parsePart (slice buf k (e - 2))⟩ :: steps) := by
  simp [parseLoop, hk, he, hne]

/-- The loop gives the same answer with any two amounts of fuel that cover the bytes left. -/
theorem parseLoop_fuel (buf bb : Buffer) : ∀ (f1 f2 k : Nat), buf.length ≤ k + f1 →
    buf.length ≤ k + f2 → parseLoop buf bb f1 (k : Int) = parseLoop buf bb f2 (k : Int) := by
  intro f1
  induction f1 with
  | zero =>
    intro f2 k h1 _
    rw [parseLoop_of_ge buf bb 0 k (by omega), parseLoop_of_ge buf bb f2 k (by omega)]
  | succ f1 ih =>
    intro f2 k h1 h2
    by_cases hk : buf.length ≤ k
    · rw [parseLoop_of_ge buf bb _ k (by omega), parseLoop_of_ge buf bb f2 k (by omega)]
    · cases f2 with
      | zero => omega
      | succ f2 =>
        rcases indexOf_cases buf bb k (by omega) with he | ⟨n, he⟩
        · rw [parseLoop_of_not_found _ _ _ _ he, parseLoop_of_not_found _ _ _ _ he]
        · have hn := (indexOf_eq_natCast_iff buf bb k n (by omega)).1 he
          rw [parseLoop_of_found buf bb f1 k n (by omega) he (by omega),
            parseLoop_of_found buf bb f2 k n (by omega) he (by omega)]
          have := ih f2 (n + bb.length + 2) (by omega) (by omega)
          simp only [Nat.cast_add, Nat.cast_ofNat] at this
          rw [this]

theorem parseLoop_isSome (buf bb : Buffer) : ∀ (f k : Nat), buf.length ≤ k + f →
    ∃ steps, parseLoop buf bb f (k : Int) = some steps := by
  intro f
  induction f with
  | zero =>
    intro k h
    exact ⟨[], parseLoop_of_ge buf bb 0 k (by omega)⟩
  | succ f ih =>
    intro k h
    by_cases hk : buf.length ≤ k
    · exact ⟨[], parseLoop_of_ge buf bb _ k (by omega)⟩
    · rcases indexOf_cases buf bb k (by omega) with he | ⟨n, he⟩
      · exact ⟨[], parseLoop_of_not_found _ _ _ _ he⟩
      · have hn := (indexOf_eq_natCast_iff buf bb k n (by omega)).1 he
        rw [parseLoop_of_found buf bb f k n (by omega) he (by omega)]
        obtain ⟨steps, hs⟩ := ih (n + bb.length + 2) (by omega)
        simp only [Nat.cast_add, Nat.cast_ofNat] at hs
        rw [hs]
        exact ⟨_, rfl⟩

/-- The cursor `parseMultipart` starts from, as a natural number: one past the delimiter length
when the buffer has no delimiter (`-1 + length + 2`). -/
theorem start0_cases (buf bb : Buffer) :
    ∃ k : Nat, indexOf buf bb 0 + bb.length + 2 = (k : Int) ∧ bb.length + 1 ≤ k ∧
      (indexOf buf bb 0 = -1 ∨ indexOf buf bb 0 = (k : Int) - bb.length - 2) := by
  rcases indexOf_cases buf bb 0 (by omega) with he | ⟨n, he⟩
  · simp only [Nat.cast_zero] at he
    exact ⟨bb.length + 1, by rw [he]; push_cast; ring, by omega, Or.inl he⟩
  · simp only [Nat.cast_zero] at he
    exact ⟨n + bb.length + 2, by rw [he]; push_cast; ring, by omega, Or.inr (by rw [he]; push_cast; ring)⟩

theorem indexOf_sep_range (part : Buffer) :
    indexOf part crlfcrlf 0 = -1 ∨
      (0 ≤ indexOf part crlfcrlf 0 ∧ indexOf part crlfcrlf 0 + 4 ≤ part.length) := by
  rcases indexOf_cases part crlfcrlf 0 (by omega) with he | ⟨n, he⟩
  · exact Or.inl he
  · right
    simp only [Nat.cast_zero] at he
    have hn := (indexOf_eq_natCast_iff part crlfcrlf 0 n (by omega)).1 (by simpa using he)
    have h3 := hn.2.2.1.length_le
    simp only [crlfcrlf, List.length_cons, List.length_nil, List.length_drop] at h3
    rw [he]
    omega

theorem parseLoop_inRange (buf bb : Buffer) : ∀ (f k : Nat) (steps : List Step), 2 ≤ k →
    parseLoop buf bb f (k : Int) = some steps →
    (∀ st ∈ steps, st.InRange buf bb) ∧
    List.Chain' (fun a b : Step => b.start = a.next bb ∧ a.start < b.start) steps ∧
    (∀ st ∈ steps.head?, st.start = (k : Int)) := by
  intro f
  induction f with
  | zero =>
    intro k steps _ h
    by_cases hk : (k : Int) < buf.length
    · simp [parseLoop, hk] at h
    · simp only [parseLoop, hk, if_false, Option.some.injEq] at h
      subst h
      simp
  | succ f ih =>
    intro k steps h2 h
    by_cases hk : buf.length ≤ k
    · rw [parseLoop_of_ge buf bb _ k (by omega)] at h
      simp only [Option.some.injEq] at h
      subst h
      simp
    · rcases indexOf_cases buf bb k (by omega) with he | ⟨n, he⟩
      · rw [parseLoop_of_not_found _ _ _ _ he] at h
        simp only [Option.some.injEq] at h
        subst h
        simp
      · have hn := (indexOf_eq_natCast_iff buf bb k n (by omega)).1 he
        have hlen := hn.2.2.1.length_le
        simp only [List.length_drop] at hlen
        rw [parseLoop_of_found buf bb f k n (by omega) he (by omega)] at h
        simp only [Option.map_eq_some'] at h
        obtain ⟨rest, hrest, rfl⟩ := h
        have hcast : ((n : Int) + (bb.length : Int) + 2) = ((n + bb.length + 2 : Nat) : Int) := by
          push_cast; ring
        rw [hcast] at hrest
        obtain ⟨i1, i2, i3⟩ := ih (n + bb.length + 2) rest (by omega) hrest
        refine ⟨?_, ?_, by simp⟩
        · intro st hst
          rcases List.mem_cons.1 hst with rfl | hst
          · refine ⟨by dsimp only; omega, by dsimp only; omega, by simp [he], by dsimp only; omega,
              by dsimp only; omega, by dsimp only; omega, by dsimp only; omega, rfl, rfl, ?_, rfl⟩
            exact indexOf_sep_range _
          · exact i1 st hst
        · cases rest with
          | nil => simp
          | cons r rest =>
            refine List.Chain'.cons ?_ i2
            have := i3 r (by simp)
            simp only [Step.next]
            rw [this]
            constructor
            · push_cast; ring
            · omega

theorem parseSteps_eq (buf : Buffer) (B : JSString) :
    ∃ k : Nat, (boundaryBuffer B).length + 1 ≤ k ∧
      indexOf buf (boundaryBuffer B) 0 + (boundaryBuffer B).length + 2 = (k : Int) ∧
      parseSteps buf B = parseLoop buf (boundaryBuffer B) (buf.length + 1) (k : Int) := by
  obtain ⟨k, hk, hk2, _⟩ := start0_cases buf (boundaryBuffer B)
  exact ⟨k, hk2, hk, by rw [parseSteps, hk]⟩

theorem parseSteps_total (buffer : Buffer) (boundary : JSString) :
    ∃ steps, parseSteps buffer boundary = some steps ∧
      parseMultipart buffer boundary = some (steps.filterMap Step.pushed) ∧
      (∀ st ∈ steps, st.InRange buffer (boundaryBuffer boundary) ∧
        st.start < st.next (boundaryBuffer boundary)) ∧
      List.Chain' (fun a b : Step => b.start = a.next (boundaryBuffer boundary) ∧ a.start < b.start)
        steps := by
  obtain ⟨k, hk, _, hsteps⟩ := parseSteps_eq buffer boundary
  have hb := boundaryBuffer_length boundary
  obtain ⟨steps, hs⟩ := parseLoop_isSome buffer (boundaryBuffer boundary) (buffer.length + 1) k
    (by omega)
  obtain ⟨i1, i2, _⟩ := parseLoop_inRange buffer (boundaryBuffer boundary) _ k steps (by omega) hs
  refine ⟨steps, by rw [hsteps, hs], by rw [parseMultipart, hsteps, hs]; rfl, ?_, i2⟩
  intro st hst
  refine ⟨i1 st hst, ?_⟩
  obtain ⟨_, _, _, h4, _⟩ := i1 st hst
  simp only [Step.next]
  omega

/-- C7: `parseMultipart` returns for every buffer and boundary: the fuel it gives the loop is
enough, and so is any amount of fuel from the length of the buffer on.  The first cursor is the
index of the first delimiter (or `-1`) plus the delimiter length plus 2; every iteration is in
range (`Step.InRange`: the delimiter index is at or after the cursor and every slice has bounds
between 0 and the length of what is sliced), and the cursor strictly increases: the next
cursor is the delimiter index plus the delimiter length plus 2. -/
theorem parseMultipart_never_throws (buffer : Buffer) (boundary : JSString) :
    ∃ steps, parseSteps buffer boundary = some steps ∧
      (∀ fuel, buffer.length ≤ fuel →
        parseLoop buffer (boundaryBuffer boundary) fuel
          (indexOf buffer (boundaryBuffer boundary) 0 + (boundaryBuffer boundary).length + 2) =
            some steps) ∧
      parseMultipart buffer boundary = some (steps.filterMap Step.pushed) ∧
      (∀ st ∈ steps.head?, st.start =
        indexOf buffer (boundaryBuffer boundary) 0 + (boundaryBuffer boundary).length + 2) ∧
      (∀ st ∈ steps, st.InRange buffer (boundaryBuffer boundary) ∧
        st.start < st.next (boundaryBuffer boundary)) ∧
      List.Chain' (fun a b : Step => b.start = a.next (boundaryBuffer boundary) ∧ a.start < b.start)
        steps := by
  obtain ⟨k, hk, hk0, hsteps⟩ := parseSteps_eq buffer boundary
  have hb := boundaryBuffer_length boundary
  obtain ⟨steps, hs⟩ := parseLoop_isSome buffer (boundaryBuffer boundary) (buffer.length + 1) k
    (by omega)
  obtain ⟨i1, i2, i3⟩ := parseLoop_inRange buffer (boundaryBuffer boundary) _ k steps (by omega) hs
  refine ⟨steps, by rw [hsteps, hs], ?_, by rw [parseMultipart, hsteps, hs]; rfl, ?_, ?_, i2⟩
  · intro fuel hfuel
    rw [hk0, parseLoop_fuel buffer (boundaryBuffer boundary) fuel (buffer.length + 1) k
      (by omega) (by omega), hs]
  · intro st hst
    rw [hk0]
    exact i3 st hst
  · intro st hst
    refine ⟨i1 st hst, ?_⟩
    obtain ⟨_, _, _, h4, _⟩ := i1 st hst
    simp only [Step.next]
    omega

/-- C5: a buffer with no occurrence of the bytes of `--boundary` is parsed to the empty
sequence. -/
theorem parseMultipart_no_boundary (buffer : Buffer) (boundary : JSString)
    (h : ¬ boundaryBuffer boundary <:+: buffer) : parseMultipart buffer boundary = some [] := by
  obtain ⟨k, hk, _, hsteps⟩ := parseSteps_eq buffer boundary
  rw [parseMultipart, hsteps]
  by_cases hlen : buffer.length ≤ k
  · rw [parseLoop_of_ge _ _ _ _ (by omega)]; rfl
  · have : indexOf buffer (boundaryBuffer boundary) (k : Int) = -1 := by
      rw [indexOf_eq_neg_one_iff _ _ _ (by omega)]
      intro hc
      exact h (hc.trans (List.drop_suffix k buffer).isInfix)
    rw [parseLoop_of_not_found _ _ _ _ this]; rfl

theorem parseMultipart_no_boundary_witness :
    ¬ boundaryBuffer (str "x") <:+: [] ∧ parseMultipart [] (str "x") = some [] :=
  ⟨by decide, parseMultipart_no_boundary [] (str "x") (by decide)⟩

theorem parsePart_data (part : Buffer) (p : Part) (h : parsePart part = some p) :
    ∃ n : Nat, indexOf part crlfcrlf 0 = (n : Int) ∧ n + 4 ≤ part.length ∧
      p.data = part.drop (n + 4) := by
  unfold parsePart at h
  rcases indexOf_cases part crlfcrlf 0 (by omega) with he | ⟨n, he⟩
  · simp only [Nat.cast_zero] at he
    simp [he] at h
  · simp only [Nat.cast_zero] at he
    have hr := indexOf_sep_range part
    rw [he] at hr
    simp only [he] at h
    have hne : ¬ ((n : Int) = -1) := by omega
    simp only [ne_eq, hne, not_false_eq_true, if_true] at h
    refine ⟨n, he, by omega, ?_⟩
    cases hm : nameMatch (utf8Decode (slice part 0 (n : Int))) with
    | none => simp [hm] at h
    | some nm =>
      simp only [hm, Option.some.injEq] at h
      subst h
      have : ((n : Int) + 4) = ((n + 4 : Nat) : Int) := by push_cast; ring
      simp only [this, slice_natCast]
      rw [List.take_of_length_le (by simp)]

theorem parseSteps_trace (buffer : Buffer) (boundary : JSString) :
    ∃ steps, parseSteps buffer boundary = some steps ∧
      parseMultipart buffer boundary = some (steps.filterMap Step.pushed) ∧
      (∀ st ∈ steps.head?, st.start =
        indexOf buffer (boundaryBuffer boundary) 0 + (boundaryBuffer boundary).length + 2) ∧
      (∀ st ∈ steps, st.InRange buffer (boundaryBuffer boundary)) ∧
      List.Chain' (fun a b : Step => b.start = a.next (boundaryBuffer boundary) ∧ a.start < b.start)
        steps := by
  obtain ⟨k, hk, hk0, hsteps⟩ := parseSteps_eq buffer boundary
  have hb := boundaryBuffer_length boundary
  obtain ⟨steps, hs⟩ := parseLoop_isSome buffer (boundaryBuffer boundary) (buffer.length + 1) k
    (by omega)
  obtain ⟨i1, i2, i3⟩ := parseLoop_inRange buffer (boundaryBuffer boundary) _ k steps (by omega) hs
  refine ⟨steps, by rw [hsteps, hs], by rw [parseMultipart, hsteps, hs]; rfl, ?_, i1, i2⟩
  intro st hst
  rw [hk0]
  exact i3 st hst

/-- The data pushed by an iteration is the range of the buffer from four bytes past the first
CR LF CR LF of its span up to two bytes before the delimiter found from its cursor. -/
theorem step_data (buffer bb : Buffer) (st : Step) (p : Part) (hst : st.InRange buffer bb)
    (hpush : st.pushed = some p) :
    ∃ start e h : Nat, st.start = (start : Int) ∧ st.endIdx = (e : Int) ∧
      st.headerEnd = (h : Int) ∧
      indexOf buffer bb (start : Int) = (e : Int) ∧
      indexOf (slice buffer (start : Int) ((e : Int) - 2)) crlfcrlf 0 = (h : Int) ∧
      start + h + 4 ≤ e - 2 ∧ e - 2 ≤ buffer.length ∧
      p.data = (buffer.drop (start + h + 4)).take (e - 2 - (start + h + 4)) ∧
      p.data <:+: buffer := by
  obtain ⟨r1, r2, r3, r4, r5, r6, r7, r8, r9, r10, r11⟩ := hst
  obtain ⟨s, hs⟩ := Int.eq_ofNat_of_zero_le r1
  obtain ⟨e, he⟩ := Int.eq_ofNat_of_zero_le (by omega : 0 ≤ st.endIdx)
  rw [r11] at hpush
  obtain ⟨n, hn1, hn2, hn3⟩ := parsePart_data _ _ hpush
  have he2 : st.endIdx - 2 = ((e - 2 : Nat) : Int) := by omega
  have hpart : st.part = (buffer.drop s).take (e - 2 - s) := by
    rw [r8, hs, he2, slice_natCast]
  have hlen : st.part.length = e - 2 - s := by
    rw [hpart, List.length_take, List.length_drop]; omega
  have hdata : p.data = (buffer.drop (s + n + 4)).take (e - 2 - (s + n + 4)) := by
    rw [hn3, hpart, List.drop_take, List.drop_drop]
    congr 1
    · omega
  refine ⟨s, e, n, hs, he, by rw [r9, hn1], by rw [← hs, ← he]; exact r3.symm, ?_, by omega,
    by omega, hdata, ?_⟩
  · rw [← hs, ← he, ← r8]; exact hn1
  · rw [hdata]
    exact (List.take_prefix _ _).isInfix.trans (List.drop_suffix _ _).isInfix

theorem parseLoop_after (buf bb : Buffer) : ∀ (before : List Step) (st : Step)
    (after : List Step) (f k : Nat), 2 ≤ k → buf.length ≤ k + f →
    parseLoop buf bb f (k : Int) = some (before ++ st :: after) →
    ∀ fuel, buf.length ≤ fuel →
      parseLoop buf bb fuel (st.endIdx + bb.length + 2) = some after := by
  have step : ∀ (s0 : Step) (rest : List Step) (f k : Nat), 2 ≤ k → buf.length ≤ k + f →
      parseLoop buf bb f (k : Int) = some (s0 :: rest) →
      ∃ n f' : Nat, s0.endIdx + bb.length + 2 = (n : Int) ∧ 2 ≤ n ∧ buf.length ≤ n + f' ∧
        parseLoop buf bb f' (n : Int) = some rest := by
    intro s0 rest f k hk hf h
    by_cases hlen : buf.length ≤ k
    · rw [parseLoop_of_ge buf bb f k (by omega)] at h
      simp at h
    · cases f with
      | zero => omega
      | succ f =>
        rcases indexOf_cases buf bb k (by omega) with he | ⟨n, he⟩
        · rw [parseLoop_of_not_found _ _ _ _ he] at h
          simp at h
        · have hn := (indexOf_eq_natCast_iff buf bb k n (by omega)).1 he
          rw [parseLoop_of_found buf bb f k n (by omega) he (by omega)] at h
          simp only [Option.map_eq_some'] at h
          obtain ⟨r, hr, hcons⟩ := h
          simp only [List.cons.injEq] at hcons
          obtain ⟨hs0, rfl⟩ := hcons
          refine ⟨n + bb.length + 2, f, ?_, by omega, by omega, ?_⟩
          · rw [← hs0]; push_cast; ring
          · have hcast : ((n : Int) + (bb.length : Int) + 2) = ((n + bb.length + 2 : Nat) : Int) := by
              push_cast; ring
            rw [← hcast]; exact hr
  intro before
  induction before with
  | nil =>
    intro st after f k hk hf h fuel hfuel
    obtain ⟨n, f', hn, hn2, hf', hr⟩ := step st after f k hk hf (by simpa using h)
    rw [hn, parseLoop_fuel buf bb fuel f' n (by omega) hf', hr]
  | cons s0 before ih =>
    intro st after f k hk hf h fuel hfuel
    obtain ⟨n, f', _, hn2, hf', hr⟩ := step s0 (before ++ st :: after) f k hk hf
      (by simpa using h)
    exact ih st after f' n hn2 hf' hr fuel hfuel

/-- C10: the parts returned are those pushed by the iterations of the loop, whose cursors
are fixed by the buffer: the first is the index of the first delimiter plus the delimiter
length plus 2, each next one is the delimiter index found from the cursor plus the delimiter
length plus 2.  The data pushed by an iteration with cursor `start`, delimiter index `e` and
first CR LF CR LF of the span from `start` to `e - 2` at `h` is the bytes of the buffer from
`start + h + 4` up to `e - 2`, unchanged. -/
theorem parseMultipart_data_subrange (buffer : Buffer) (boundary : JSString) (parts : List Part)
    (hp : parseMultipart buffer boundary = some parts) :
    ∃ steps, parseSteps buffer boundary = some steps ∧ parts = steps.filterMap Step.pushed ∧
      (∀ st ∈ steps.head?, st.start =
        indexOf buffer (boundaryBuffer boundary) 0 + (boundaryBuffer boundary).length + 2) ∧
      List.Chain' (fun a b : Step => b.start = a.endIdx + (boundaryBuffer boundary).length + 2)
        steps ∧
      ∀ st ∈ steps, ∀ p, st.pushed = some p →
        ∃ start e h : Nat, st.start = (start : Int) ∧ st.endIdx = (e : Int) ∧
          st.headerEnd = (h : Int) ∧
          indexOf buffer (boundaryBuffer boundary) (start : Int) = (e : Int) ∧
          indexOf (slice buffer (start : Int) ((e : Int) - 2)) crlfcrlf 0 = (h : Int) ∧
          start + h + 4 ≤ e - 2 ∧ e - 2 ≤ buffer.length ∧
          p.data = (buffer.drop (start + h + 4)).take (e - 2 - (start + h + 4)) ∧
          p.data <:+: buffer := by
  obtain ⟨steps, h1, h2, h3, h4, h5⟩ := parseSteps_trace buffer boundary
  rw [hp] at h2
  simp only [Option.some.injEq] at h2
  refine ⟨steps, h1, h2, h3, ?_, ?_⟩
  · exact List.Chain'.imp (fun a b hab => hab.1) h5
  · intro st hst p hpush
    exact step_data buffer _ st p (h4 st hst) hpush

theorem str_crlf : str "\r\n" = [13, 10] := by decide
theorem str_dashes : str "--" = [45, 45] := by decide
theorem str_closing : str "--\r\n" = [45, 45, 13, 10] := by decide
theorem str_quote : str "\"" = [34] := by decide
theorem str_quote_crlf : str "\"\r\n" = [34, 13, 10] := by decide
theorem str_disposition : str "Content-Disposition: form-data; name=\"" =
    [67, 111, 110, 116, 101, 110, 116, 45, 68, 105, 115, 112, 111, 115, 105, 116, 105, 111, 110,
      58, 32, 102, 111, 114, 109, 45, 100, 97, 116, 97, 59, 32, 110, 97, 109, 101, 61, 34] := by
  decide
theorem str_filename : str "\"; filename=\"" =
    [34, 59, 32, 102, 105, 108, 101, 110, 97, 109, 101, 61, 34] := by decide
theorem str_filename_attr : str "; filename=\"" =
    [59, 32, 102, 105, 108, 101, 110, 97, 109, 101, 61, 34] := by decide
theorem str_content_type : str "Content-Type: " =
    [67, 111, 110, 116, 101, 110, 116, 45, 84, 121, 112, 101, 58, 32] := by decide

theorem utf8Encode_ascii_append (a s : JSString) (ha : ∀ u ∈ a, u < 0x80) :
    utf8Encode (a ++ s) = a ++ utf8Encode s := by
  induction a with
  | nil => rfl
  | cons u a ih =>
    rw [List.cons_append, utf8Encode_cons_of_lt _ _ (ha u (by simp)),
      ih (fun v hv => ha v (by simp [hv])), List.cons_append]

theorem utf8Encode_pair (u l : Nat) (rest : JSString)
    (h : (0xD800 ≤ u ∧ u ≤ 0xDBFF) ∧ (0xDC00 ≤ l ∧ l ≤ 0xDFFF)) :
    utf8Encode (u :: l :: rest) = encodePair u l ++ utf8Encode rest := by
  rw [utf8Encode, if_pos h]

theorem utf8Encode_not_pair (u l : Nat) (rest : JSString)
    (h : ¬ ((0xD800 ≤ u ∧ u ≤ 0xDBFF) ∧ (0xDC00 ≤ l ∧ l ≤ 0xDFFF))) :
    utf8Encode (u :: l :: rest) = encodeUnit u ++ utf8Encode (l :: rest) := by
  rw [utf8Encode, if_neg h]

theorem utf8Encode_append_cons (c : Nat) (t : JSString) (hc : ¬ (0xDC00 ≤ c ∧ c ≤ 0xDFFF)) :
    ∀ s : JSString, utf8Encode (s ++ c :: t) = utf8Encode s ++ utf8Encode (c :: t) := by
  intro s
  induction s using utf8Encode.induct with
  | case1 => rfl
  | case2 u =>
    rw [List.singleton_append, utf8Encode_not_pair u c t (fun h => hc h.2)]
    rfl
  | case3 u l rest hpair ih =>
    rw [List.cons_append, List.cons_append, utf8Encode_pair u l _ hpair, ih,
      utf8Encode_pair u l _ hpair, List.append_assoc]
  | case4 u l rest hpair ih =>
    rw [List.cons_append, utf8Encode_not_pair u l _ hpair, List.cons_append,
      utf8Encode_not_pair u l _ hpair, List.append_assoc, ← ih, List.cons_append]

theorem utf8Encode_ascii (a : JSString) (ha : ∀ u ∈ a, u < 0x80) : utf8Encode a = a := by
  have := utf8Encode_ascii_append a [] ha
  simpa [utf8Encode] using this

theorem utf8Encode_append_ascii (s a : JSString) (ha : ∀ u ∈ a, u < 0x80) :
    utf8Encode (s ++ a) = utf8Encode s ++ a := by
  cases a with
  | nil => simp [utf8Encode]
  | cons c t =>
    rw [utf8Encode_append_cons c t (by have := ha c (by simp); omega) s, utf8Encode_ascii _ ha]

theorem foldl_append_flatMap {α β : Type} (f : α → List β) (l : List α) (init : List β) :
    l.foldl (fun c p => c ++ f p) init = init ++ l.flatMap f := by
  induction l generalizing init with
  | nil => simp
  | cons a l ih => simp [ih, List.append_assoc]

theorem buildMultipart_eq (parts : List Part) (B : JSString) :
    buildMultipart parts B =
      parts.flatMap (fun p => (partChunks B p).flatten) ++
        utf8Encode ([45, 45] ++ B ++ str "--\r\n") := by
  unfold buildMultipart
  rw [foldl_append_flatMap]
  simp only [List.nil_append, List.flatten_append, List.flatten_cons, List.flatten_nil,
    List.append_nil]
  congr 1
  induction parts with
  | nil => rfl
  | cons p ps ih => simp [ih]

theorem mem_crlf_lt : ∀ u ∈ ([13, 10] : List Nat), u < 0x80 := by decide
theorem mem_closing_lt : ∀ u ∈ ([45, 45, 13, 10] : List Nat), u < 0x80 := by decide
theorem mem_quote_crlf_lt : ∀ u ∈ ([34, 13, 10] : List Nat), u < 0x80 := by decide

theorem partChunks_flatten_eq (B : JSString) (p : Part) :
    (partChunks B p).flatten = specBlock truthy B p := by
  unfold partChunks specBlock specLine
  simp only [str_crlf, str_dashes, str_quote, str_quote_crlf, str_filename, str_filename_attr]
  have e1 : utf8Encode ([45, 45] ++ B ++ [13, 10]) = utf8Encode ([45, 45] ++ B) ++ [13, 10] :=
    utf8Encode_append_ascii _ _ mem_crlf_lt
  have e2 : utf8Encode ([13, 10] : List Nat) = [13, 10] := utf8Encode_ascii _ mem_crlf_lt
  rw [e1, e2]
  cases hf : truthy p.filename
  · simp only [Bool.false_eq_true, if_false, Bool.false_and, List.append_nil]
    have e3 : utf8Encode (str "Content-Disposition: form-data; name=\"" ++ p.name ++ [34, 13, 10])
        = utf8Encode (str "Content-Disposition: form-data; name=\"" ++ p.name ++ [34]) ++ [13, 10] := by
      rw [← utf8Encode_append_ascii _ _ mem_crlf_lt]
      simp [List.append_assoc]
    rw [e3]
    simp [List.append_assoc]
  · simp only [if_true, Bool.true_and]
    have e3 : utf8Encode (str "Content-Disposition: form-data; name=\"" ++ p.name ++
          [34, 59, 32, 102, 105, 108, 101, 110, 97, 109, 101, 61, 34] ++ p.filename.getD [] ++
          [34, 13, 10])
        = utf8Encode (str "Content-Disposition: form-data; name=\"" ++ p.name ++ [34] ++
          ([59, 32, 102, 105, 108, 101, 110, 97, 109, 101, 61, 34] ++ p.filename.getD [] ++ [34]))
          ++ [13, 10] := by
      rw [← utf8Encode_append_ascii _ _ mem_crlf_lt]
      simp [List.append_assoc]
    rw [e3]
    cases hc : truthy p.contentType
    · simp [List.append_assoc]
    · have e4 : utf8Encode (str "Content-Type: " ++ p.contentType.getD [] ++ [13, 10]) =
          utf8Encode (str "Content-Type: " ++ p.contentType.getD []) ++ [13, 10] :=
        utf8Encode_append_ascii _ _ mem_crlf_lt
      rw [e4]
      simp [List.append_assoc]

theorem buildMultipart_eq_spec (parts : List Part) (B : JSString) :
    buildMultipart parts B = specEncode truthy parts B := by
  rw [buildMultipart_eq, specEncode, specLine]
  congr 1
  · congr 1
    funext p
    exact partChunks_flatten_eq B p
  · rw [str_closing, str_dashes]
    have : [45, 45] ++ B ++ [45, 45, 13, 10] = ([45, 45] ++ B ++ [45, 45]) ++ [13, 10] := by simp
    rw [this, utf8Encode_append_ascii _ _ mem_crlf_lt]

theorem specBlock_truthy_of_no_filename (B : JSString) (p : Part) (ct : Option JSString)
    (h : truthy p.filename = false) :
    specBlock truthy B { p with contentType := ct } = specBlock truthy B p := by
  simp [specBlock, h]

/-- C3, as amended: the output of `buildMultipart` is the described format, block by block and
then the closing marker, where a filename or content type counts as present when it is a
non-empty string (`truthy`).  A part whose filename is absent or empty gives the same bytes
whatever its content type is. -/
theorem buildMultipart_format (parts : List Part) (boundary : JSString) :
    buildMultipart parts boundary = specEncode truthy parts boundary ∧
    ∀ (before after : List Part) (p : Part) (ct : Option JSString), truthy p.filename = false →
      buildMultipart (before ++ { p with contentType := ct } :: after) boundary =
        buildMultipart (before ++ p :: after) boundary := by
  refine ⟨buildMultipart_eq_spec parts boundary, ?_⟩
  intro before after p ct h
  rw [buildMultipart_eq_spec, buildMultipart_eq_spec, specEncode, specEncode]
  simp only [List.flatMap_append, List.flatMap_cons, specBlock_truthy_of_no_filename boundary p ct h]

/-- C3, as stated, fails for a part whose filename is the empty string: the filename is
there, yet `buildMultipart` writes no `filename` attribute. -/
theorem buildMultipart_format_counterexample :
    buildMultipart [⟨str "a", some [], none, str "hi"⟩] (str "x") =
      utf8Encode (str "--x\r\nContent-Disposition: form-data; name=\"a\"\r\n\r\nhi\r\n--x--\r\n") ∧
    specEncode Option.isSome [⟨str "a", some [], none, str "hi"⟩] (str "x") =
      utf8Encode (str "--x\r\nContent-Disposition: form-data; name=\"a\"; filename=\"\"\r\n\r\nhi\r\n--x--\r\n") ∧
    buildMultipart [⟨str "a", some [], none, str "hi"⟩] (str "x") ≠
      specEncode Option.isSome [⟨str "a", some [], none, str "hi"⟩] (str "x") := by
  decide

theorem buildMultipart_format_witness :
    buildMultipart sampleParts (str "x") = specEncode truthy sampleParts (str "x") ∧
    buildMultipart ([] ++ { (⟨str "caption", none, none, str "hi"⟩ : Part) with
        contentType := some (str "text/plain") } :: []) (str "x") =
      buildMultipart ([] ++ (⟨str "caption", none, none, str "hi"⟩ : Part) :: []) (str "x") :=
  ⟨(buildMultipart_format sampleParts (str "x")).1,
    (buildMultipart_format [] (str "x")).2 [] [] ⟨str "caption", none, none, str "hi"⟩
      (some (str "text/plain")) (by decide)⟩

/-- C2 fails on the code: a header block with `filename="f.png"` and no `name` attribute
is not dropped, because `/name="([^"]+)"/` matches inside `filename="f.png"`; the part comes
out with name `f.png`. -/
theorem parseMultipart_filename_read_as_name :
    nameMatch (str "Content-Disposition: form-data; filename=\"f.png\"") = some (str "f.png") ∧
    parseMultipart sampleNoName (str "x") =
      some [⟨str "f.png", some (str "f.png"), none, str "hi"⟩] := by
  decide

/-- C6, as stated, fails: the span `abc` between two delimiters has no CR LF CR LF, and
no part is produced for it. -/
theorem parseMultipart_no_separator_counterexample :
    ¬ crlfcrlf <:+: str "abc" ∧
    parseSteps sampleNoSeparator (str "x") = some [⟨5, 10, str "abc", -1, none⟩] ∧
    parseMultipart sampleNoSeparator (str "x") = some [] := by
  decide

/-- C6, as amended: an iteration whose raw span (the slice from the cursor to two bytes before
the delimiter found from the cursor) has no CR LF CR LF pushes no part, and the scan
continues: the iterations after it are those of the loop run from the cursor past that
delimiter (delimiter index plus delimiter length plus 2), and the parts returned are those
pushed before it followed by those pushed after it. -/
theorem parseMultipart_no_separator (buffer : Buffer) (boundary : JSString)
    (before after : List Step) (st : Step)
    (h : parseSteps buffer boundary = some (before ++ st :: after))
    (hno : ¬ crlfcrlf <:+: st.part) :
    st.endIdx = indexOf buffer (boundaryBuffer boundary) st.start ∧
    st.part = slice buffer st.start (st.endIdx - 2) ∧
    st.headerEnd = -1 ∧ st.pushed = none ∧
    (∀ fuel, buffer.length ≤ fuel →
      parseLoop buffer (boundaryBuffer boundary) fuel
        (st.endIdx + (boundaryBuffer boundary).length + 2) = some after) ∧
    parseMultipart buffer boundary =
      some (before.filterMap Step.pushed ++ after.filterMap Step.pushed) := by
  obtain ⟨steps, h1, h2, _, h4, _⟩ := parseSteps_trace buffer boundary
  rw [h] at h1
  simp only [Option.some.injEq] at h1
  subst h1
  obtain ⟨_, _, r3, _, _, _, _, r8, r9, _, r11⟩ := h4 st (by simp)
  have hidx : indexOf st.part crlfcrlf 0 = -1 := by
    have := (indexOf_eq_neg_one_iff st.part crlfcrlf 0 (by omega)).2 (by simpa using hno)
    simpa using this
  have hpushed : st.pushed = none := by
    rw [r11, parsePart]
    simp [hidx]
  refine ⟨r3, r8, by rw [r9, hidx], hpushed, ?_, ?_⟩
  · obtain ⟨k, hk, _, hsteps⟩ := parseSteps_eq buffer boundary
    have hb := boundaryBuffer_length boundary
    rw [hsteps] at h
    exact parseLoop_after buffer _ before st after _ k (by omega) (by omega) h
  · rw [h2, List.filterMap_append, List.filterMap_cons, hpushed]

set_option maxRecDepth 4000 in
theorem parseMultipart_no_separator_witness :
    (parseSteps sampleSkipped (str "x") = some ([] ++ sampleSpanStep :: [sampleSkippedStep]) ∧
      ¬ crlfcrlf <:+: sampleSpanStep.part) ∧
    (sampleSpanStep.endIdx =
        indexOf sampleSkipped (boundaryBuffer (str "x")) sampleSpanStep.start ∧
      sampleSpanStep.part =
        slice sampleSkipped sampleSpanStep.start (sampleSpanStep.endIdx - 2) ∧
      sampleSpanStep.headerEnd = -1 ∧ sampleSpanStep.pushed = none ∧
      (∀ fuel, sampleSkipped.length ≤ fuel →
        parseLoop sampleSkipped (boundaryBuffer (str "x")) fuel
          (sampleSpanStep.endIdx + (boundaryBuffer (str "x")).length + 2) =
            some [sampleSkippedStep]) ∧
      parseMultipart sampleSkipped (str "x") =
        some (([] : List Step).filterMap Step.pushed ++
          [sampleSkippedStep].filterMap Step.pushed)) :=
  ⟨⟨by decide, by decide⟩,
    parseMultipart_no_separator sampleSkipped (str "x") [] [sampleSkippedStep]
      sampleSpanStep (by decide) (by decide)⟩

set_option maxRecDepth 4000 in
theorem parseMultipart_data_subrange_witness :
    parseMultipart sampleBlankInData (str "x") =
      some [⟨str "a", none, none, str "hi\r\n\r\nyo"⟩] ∧
    ∃ steps, parseSteps sampleBlankInData (str "x") = some steps ∧
      [(⟨str "a", none, none, str "hi\r\n\r\nyo"⟩ : Part)] = steps.filterMap Step.pushed ∧
      (∀ st ∈ steps.head?, st.start =
        indexOf sampleBlankInData (boundaryBuffer (str "x")) 0 +
          (boundaryBuffer (str "x")).length + 2) ∧
      List.Chain' (fun a b : Step => b.start = a.endIdx + (boundaryBuffer (str "x")).length + 2)
        steps ∧
      ∀ st ∈ steps, ∀ p, st.pushed = some p →
        ∃ start e h : Nat, st.start = (start : Int) ∧ st.endIdx = (e : Int) ∧
          st.headerEnd = (h : Int) ∧
          indexOf sampleBlankInData (boundaryBuffer (str "x")) (start : Int) = (e : Int) ∧
          indexOf (slice sampleBlankInData (start : Int) ((e : Int) - 2)) crlfcrlf 0 = (h : Int) ∧
          start + h + 4 ≤ e - 2 ∧ e - 2 ≤ sampleBlankInData.length ∧
          p.data = (sampleBlankInData.drop (start + h + 4)).take (e - 2 - (start + h + 4)) ∧
          p.data <:+: sampleBlankInData :=
  ⟨by decide, parseMultipart_data_subrange sampleBlankInData (str "x") _ (by decide)⟩

/-- C9: with boundary `x`, the part named `a"b` is written with its quote unescaped and
is read back with the name cut at the quote, so the round trip does not give the part back. -/
theorem unescaped_quote_breaks_round_trip :
    ∃ (boundary : JSString) (part : Part), 34 ∈ part.name ∧ part.filename = none ∧
      buildMultipart [part] boundary =
        utf8Encode (str "--x\r\nContent-Disposition: form-data; name=\"a\"b\"\r\n\r\nhi\r\n--x--\r\n") ∧
      parseMultipart (buildMultipart [part] boundary) boundary =
        some [{ part with name := part.name.takeWhile (· ≠ 34) }] ∧
      parseMultipart (buildMultipart [part] boundary) boundary ≠ some [part] :=
  ⟨str "x", ⟨str "a\"b", none, none, str "hi"⟩, by decide, rfl, by decide, by decide, by decide⟩

theorem occ_append_iff (v P t : Buffer) (j : Nat) (h : j + v.length ≤ P.length) :
    v <+: (P ++ t).drop j ↔ v <+: P.drop j := by
  rw [List.drop_append_of_le_length (by omega)]
  constructor
  · intro hv
    exact List.prefix_of_prefix_length_le hv (List.prefix_append _ _) (by simp; omega)
  · intro hv
    exact hv.trans (List.prefix_append _ _)

theorem length_le_of_occ (v buf : Buffer) (e : Nat) (hv : v ≠ []) (h : v <+: buf.drop e) :
    e + v.length ≤ buf.length := by
  have := h.length_le
  simp only [List.length_drop] at this
  have hpos : 0 < v.length := List.length_pos.2 hv
  omega

theorem occ_agree (v b1 b2 : Buffer) (e : Nat) (hv : v ≠ [])
    (h1 : LastOccurrenceAt v b1 e) (h2 : LastOccurrenceAt v b2 e)
    (hagree : b1.take (e + v.length) = b2.take (e + v.length)) (j : Nat) :
    v <+: b1.drop j ↔ v <+: b2.drop j := by
  have l1 := length_le_of_occ v b1 e hv h1.1
  have l2 := length_le_of_occ v b2 e hv h2.1
  by_cases hj : j ≤ e
  · have e1 : b1 = b1.take (e + v.length) ++ b1.drop (e + v.length) := (List.take_append_drop _ _).symm
    have e2 : b2 = b1.take (e + v.length) ++ b2.drop (e + v.length) := by
      rw [hagree]; exact (List.take_append_drop _ _).symm
    rw [e1, occ_append_iff _ _ _ _ (by simp; omega)]
    conv_rhs => rw [e2, occ_append_iff _ _ _ _ (by simp; omega)]
  · constructor
    · intro h; exact absurd h (h1.2 j (by omega))
    · intro h; exact absurd h (h2.2 j (by omega))

theorem indexOf_agree (v b1 b2 : Buffer) (e : Nat) (hv : v ≠ [])
    (h1 : LastOccurrenceAt v b1 e) (h2 : LastOccurrenceAt v b2 e)
    (hagree : b1.take (e + v.length) = b2.take (e + v.length)) (k : Nat)
    (hk1 : k ≤ b1.length) (hk2 : k ≤ b2.length) :
    indexOf b1 v (k : Int) = indexOf b2 v (k : Int) := by
  have l2 := length_le_of_occ v b2 e hv h2.1
  rcases indexOf_cases b1 v k hk1 with he | ⟨n, he⟩
  · rw [he]
    symm
    rw [indexOf_eq_neg_one_iff _ _ _ hk2]
    rw [indexOf_eq_neg_one_iff _ _ _ hk1] at he
    intro hc
    apply he
    obtain ⟨j, hj, hjp⟩ := (infix_iff_exists_drop _ _).1 hc
    rw [List.drop_drop] at hjp
    have := (occ_agree v b1 b2 e hv h1 h2 hagree (k + j)).2 hjp
    refine (infix_iff_exists_drop _ _).2 ⟨j, ?_, by rwa [List.drop_drop]⟩
    have := length_le_of_occ v b1 (k + j) hv this
    simp only [List.length_drop]
    omega
  · rw [he]
    symm
    obtain ⟨a1, a2, a3, a4⟩ := (indexOf_eq_natCast_iff _ _ _ _ hk1).1 he
    rw [indexOf_eq_natCast_iff _ _ _ _ hk2]
    have hne : n ≤ e := by
      by_contra hc
      exact h1.2 n (by omega) a3
    refine ⟨a1, by omega, (occ_agree v b1 b2 e hv h1 h2 hagree n).1 a3, ?_⟩
    intro j hj1 hj2 hc
    exact a4 j hj1 hj2 ((occ_agree v b1 b2 e hv h1 h2 hagree j).2 hc)

theorem indexOf_after_last (v b : Buffer) (e : Nat) (h : LastOccurrenceAt v b e) (k : Nat)
    (hk : k ≤ b.length) (hek : e < k) : indexOf b v (k : Int) = -1 := by
  rw [indexOf_eq_neg_one_iff _ _ _ hk]
  intro hc
  obtain ⟨j, _, hjp⟩ := (infix_iff_exists_drop _ _).1 hc
  rw [List.drop_drop] at hjp
  exact h.2 (k + j) (by omega) hjp

theorem slice_agree (b1 b2 : Buffer) (m : Nat) (hagree : b1.take m = b2.take m) (k n : Nat)
    (hn : n ≤ m) : slice b1 (k : Int) (n : Int) = slice b2 (k : Int) (n : Int) := by
  rw [slice_natCast, slice_natCast]
  have : ∀ b : Buffer, (b.drop k).take (n - k) = ((b.take m).drop k).take (n - k) := by
    intro b
    rw [List.drop_take, List.take_take, Nat.min_eq_left (by omega)]
  rw [this b1, this b2, hagree]

theorem parseLoop_agree (bb b1 b2 : Buffer) (e : Nat) (hv : bb ≠ [])
    (h1 : LastOccurrenceAt bb b1 e) (h2 : LastOccurrenceAt bb b2 e)
    (hagree : b1.take (e + bb.length) = b2.take (e + bb.length)) :
    ∀ (f1 f2 k : Nat), 2 ≤ k → b1.length ≤ k + f1 → b2.length ≤ k + f2 →
      parseLoop b1 bb f1 (k : Int) = parseLoop b2 bb f2 (k : Int) := by
  have l1 := length_le_of_occ bb b1 e hv h1.1
  have l2 := length_le_of_occ bb b2 e hv h2.1
  have hpos : 0 < bb.length := List.length_pos.2 hv
  intro f1
  induction f1 with
  | zero =>
    intro f2 k _ hf1 hf2
    rw [parseLoop_of_ge b1 bb 0 k (by omega)]
    by_cases hk2 : b2.length ≤ k
    · rw [parseLoop_of_ge b2 bb f2 k (by omega)]
    · cases f2 with
      | zero => omega
      | succ f2 =>
        rw [parseLoop_of_not_found _ _ _ _ (indexOf_after_last bb b2 e h2 k (by omega) (by omega))]
  | succ f1 ih =>
    intro f2 k hk hf1 hf2
    by_cases hk1 : b1.length ≤ k
    · rw [parseLoop_of_ge b1 bb _ k (by omega)]
      by_cases hk2 : b2.length ≤ k
      · rw [parseLoop_of_ge b2 bb f2 k (by omega)]
      · cases f2 with
        | zero => omega
        | succ f2 =>
          rw [parseLoop_of_not_found _ _ _ _
            (indexOf_after_last bb b2 e h2 k (by omega) (by omega))]
    · by_cases hk2 : b2.length ≤ k
      · rw [parseLoop_of_ge b2 bb f2 k (by omega),
          parseLoop_of_not_found _ _ _ _ (indexOf_after_last bb b1 e h1 k (by omega) (by omega))]
      · cases f2 with
        | zero => omega
        | succ f2 =>
          have hidx := indexOf_agree bb b1 b2 e hv h1 h2 hagree k (by omega) (by omega)
          rcases indexOf_cases b1 bb k (by omega) with he | ⟨n, he⟩
          · rw [parseLoop_of_not_found _ _ _ _ he,
              parseLoop_of_not_found _ _ _ _ (hidx ▸ he)]
          · obtain ⟨a1, a2, a3, a4⟩ := (indexOf_eq_natCast_iff _ _ _ _ (by omega)).1 he
            have hne : n ≤ e := by
              by_contra hc
              exact h1.2 n (by omega) a3
            rw [parseLoop_of_found b1 bb f1 k n (by omega) he (by omega),
              parseLoop_of_found b2 bb f2 k n (by omega) (hidx ▸ he) (by omega)]
            have hcast : ((n : Int) + (bb.length : Int) + 2) = ((n + bb.length + 2 : Nat) : Int) := by
              push_cast; ring
            have hcast2 : (n : Int) - 2 = ((n - 2 : Nat) : Int) := by omega
            rw [hcast, ih f2 (n + bb.length + 2) (by omega) (by omega) (by omega), hcast2,
              slice_agree b1 b2 (e + bb.length) hagree k (n - 2) (by omega)]

theorem boundaryBuffer_ne_nil (B : JSString) : boundaryBuffer B ≠ [] := by
  simp [boundaryBuffer_eq]

theorem lastOccurrenceAt_of_bounded (v buf : Buffer) (e : Nat) (hv : v ≠ [])
    (h1 : v <+: buf.drop e) (h2 : ∀ j < buf.length, e < j → ¬ v <+: buf.drop j) :
    LastOccurrenceAt v buf e := by
  refine ⟨h1, ?_⟩
  intro j hj hc
  by_cases hlt : j < buf.length
  · exact h2 j hlt hj hc
  · rw [List.drop_of_length_le (by omega)] at hc
    exact hv (List.prefix_nil.1 hc)

theorem step_endIdx_le (bb buf : Buffer) (e : Nat) (h : LastOccurrenceAt bb buf e) (st : Step)
    (hst : st.InRange buf bb) : st.endIdx ≤ e := by
  obtain ⟨r1, r2, r3, r4, r5, _⟩ := hst
  obtain ⟨s, hs⟩ := Int.eq_ofNat_of_zero_le r1
  obtain ⟨n, hn⟩ := Int.eq_ofNat_of_zero_le (by omega : 0 ≤ st.endIdx)
  rw [hs, hn] at r3
  obtain ⟨_, _, a3, _⟩ := (indexOf_eq_natCast_iff _ _ _ _ (by omega)).1 r3.symm
  by_contra hc
  exact h.2 n (by omega) a3

/-- C8: two buffers whose last occurrence of `--boundary` starts at the same index `e` and
which agree on their first `e + length` bytes go through the same iterations and give the
same parts; no iteration reaches past the last delimiter, so nothing after it is emitted. -/
theorem parseMultipart_trailing_discarded (boundary : JSString) (b1 b2 : Buffer) (e : Nat)
    (h1 : LastOccurrenceAt (boundaryBuffer boundary) b1 e)
    (h2 : LastOccurrenceAt (boundaryBuffer boundary) b2 e)
    (hagree : b1.take (e + (boundaryBuffer boundary).length) =
      b2.take (e + (boundaryBuffer boundary).length)) :
    parseMultipart b1 boundary = parseMultipart b2 boundary ∧
    parseSteps b1 boundary = parseSteps b2 boundary ∧
    ∀ steps, parseSteps b1 boundary = some steps → ∀ st ∈ steps, st.endIdx ≤ e := by
  have hv := boundaryBuffer_ne_nil boundary
  have hb := boundaryBuffer_length boundary
  have hsteps : parseSteps b1 boundary = parseSteps b2 boundary := by
    obtain ⟨k1, hk1, hk1', hs1⟩ := parseSteps_eq b1 boundary
    obtain ⟨k2, hk2, hk2', hs2⟩ := parseSteps_eq b2 boundary
    have hidx := indexOf_agree _ b1 b2 e hv h1 h2 hagree 0 (by omega) (by omega)
    simp only [Nat.cast_zero] at hidx
    rw [hidx, hk2'] at hk1'
    have hk : k1 = k2 := by omega
    subst hk
    rw [hs1, hs2]
    exact parseLoop_agree _ b1 b2 e hv h1 h2 hagree _ _ k1 (by omega) (by omega) (by omega)
  refine ⟨by rw [parseMultipart, parseMultipart, hsteps], hsteps, ?_⟩
  intro steps hs st hst
  obtain ⟨steps', hs', _, h3, _⟩ := parseSteps_total b1 boundary
  rw [hs] at hs'
  simp only [Option.some.injEq] at hs'
  subst hs'
  exact step_endIdx_le _ _ e h1 st (h3 st hst).1

theorem parseMultipart_trailing_discarded_witness :
    (LastOccurrenceAt (boundaryBuffer (str "x")) sampleBody 53 ∧
      LastOccurrenceAt (boundaryBuffer (str "x")) sampleTruncated 53 ∧
      sampleBody.take (53 + (boundaryBuffer (str "x")).length) =
        sampleTruncated.take (53 + (boundaryBuffer (str "x")).length)) ∧
    parseMultipart sampleBody (str "x") = parseMultipart sampleTruncated (str "x") ∧
    parseSteps sampleBody (str "x") = parseSteps sampleTruncated (str "x") ∧
    ∀ steps, parseSteps sampleBody (str "x") = some steps → ∀ st ∈ steps, st.endIdx ≤ (53 : Nat) :=
  ⟨⟨lastOccurrenceAt_of_bounded _ _ _ (by decide) (by decide) (by decide),
      lastOccurrenceAt_of_bounded _ _ _ (by decide) (by decide) (by decide), by decide⟩,
    parseMultipart_trailing_discarded (str "x") sampleBody sampleTruncated 53
      (lastOccurrenceAt_of_bounded _ _ _ (by decide) (by decide) (by decide))
      (lastOccurrenceAt_of_bounded _ _ _ (by decide) (by decide) (by decide))
      (by decide)⟩

theorem utf8DecodeFrom_init_cons (b : Nat) (bs : Buffer) :
    utf8DecodeFrom (b :: bs) DecState.init = (startByte b).1 ++ utf8DecodeFrom bs (startByte b).2 := by
  simp [utf8DecodeFrom, DecState.init]

theorem utf8DecodeFrom_last (b cp lo hi : Nat) (bs : Buffer) (h : lo ≤ b ∧ b ≤ hi) :
    utf8DecodeFrom (b :: bs) ⟨1, cp, lo, hi⟩ =
      codeUnits (cp * 64 + b % 64) ++ utf8DecodeFrom bs DecState.init := by
  simp [utf8DecodeFrom, h]

theorem utf8DecodeFrom_cont (n b cp lo hi : Nat) (bs : Buffer) (h : lo ≤ b ∧ b ≤ hi) :
    utf8DecodeFrom (b :: bs) ⟨n + 2, cp, lo, hi⟩ =
      utf8DecodeFrom bs ⟨n + 1, cp * 64 + b % 64, 0x80, 0xBF⟩ := by
  simp [utf8DecodeFrom, h]

theorem decode_encodeUnit (u : Nat) (rest : Buffer) (hu : isScalarUnit u = true) :
    utf8DecodeFrom (encodeUnit u ++ rest) DecState.init = u :: utf8DecodeFrom rest DecState.init := by
  simp only [isScalarUnit, decide_eq_true_eq] at hu
  unfold encodeUnit
  by_cases h1 : u < 0x80
  · simp only [h1, if_true, List.singleton_append, utf8DecodeFrom_init_cons, startByte]
  · by_cases h2 : u < 0x800
    · simp only [h1, h2, if_true, if_false, List.cons_append, List.nil_append,
        utf8DecodeFrom_init_cons]
      have a1 : ¬ (0xC0 + u / 64 < 0x80) := by omega
      have a2 : 0xC2 ≤ 0xC0 + u / 64 ∧ 0xC0 + u / 64 ≤ 0xDF := by omega
      simp only [startByte, a1, a2, if_true, if_false, and_self, List.nil_append]
      rw [utf8DecodeFrom_last _ _ _ _ _ (by omega)]
      have a3 : (0xC0 + u / 64) % 32 * 64 + (0x80 + u % 64) % 64 = u := by omega
      rw [a3, codeUnits, if_pos (by omega)]
      rfl
    · have h3 : ¬ (0xD800 ≤ u ∧ u ≤ 0xDFFF) := by omega
      simp only [h1, h2, h3, if_false, List.cons_append, List.nil_append,
        utf8DecodeFrom_init_cons]
      have a1 : ¬ (0xE0 + u / 4096 < 0x80) := by omega
      have a2 : ¬ (0xC2 ≤ 0xE0 + u / 4096 ∧ 0xE0 + u / 4096 ≤ 0xDF) := by omega
      have a3 : 0xE0 ≤ 0xE0 + u / 4096 ∧ 0xE0 + u / 4096 ≤ 0xEF := by omega
      simp only [startByte, a1, a2, a3, if_true, if_false, and_self, List.nil_append]
      rw [utf8DecodeFrom_cont 0 _ _ _ _ _ (by split_ifs <;> omega)]
      rw [utf8DecodeFrom_last _ _ _ _ _ (by omega)]
      have a4 : ((0xE0 + u / 4096) % 16 * 64 + (0x80 + u / 64 % 64) % 64) * 64 +
          (0x80 + u % 64) % 64 = u := by omega
      rw [a4, codeUnits, if_pos (by omega)]
      rfl

theorem decode_encodePair (u l : Nat) (rest : Buffer)
    (h : (0xD800 ≤ u ∧ u ≤ 0xDBFF) ∧ (0xDC00 ≤ l ∧ l ≤ 0xDFFF)) :
    utf8DecodeFrom (encodePair u l ++ rest) DecState.init =
      u :: l :: utf8DecodeFrom rest DecState.init := by
  unfold encodePair
  obtain ⟨x, hx⟩ : ∃ x, x = 0x10000 + (u - 0xD800) * 1024 + (l - 0xDC00) := ⟨_, rfl⟩
  have hx1 : 0x10000 ≤ x := by omega
  have hx2 : x < 0x110000 := by omega
  simp only [← hx, List.cons_append, List.nil_append, utf8DecodeFrom_init_cons]
  have a1 : ¬ (0xF0 + x / 262144 < 0x80) := by omega
  have a2 : ¬ (0xC2 ≤ 0xF0 + x / 262144 ∧ 0xF0 + x / 262144 ≤ 0xDF) := by omega
  have a3 : ¬ (0xE0 ≤ 0xF0 + x / 262144 ∧ 0xF0 + x / 262144 ≤ 0xEF) := by omega
  have a4 : 0xF0 ≤ 0xF0 + x / 262144 ∧ 0xF0 + x / 262144 ≤ 0xF4 := by omega
  simp only [startByte, a1, a2, a3, a4, if_true, if_false, and_self, List.nil_append]
  rw [utf8DecodeFrom_cont 1 _ _ _ _ _ (by split_ifs <;> omega)]
  rw [utf8DecodeFrom_cont 0 _ _ _ _ _ (by omega)]
  rw [utf8DecodeFrom_last _ _ _ _ _ (by omega)]
  have a5 : (((0xF0 + x / 262144) % 8 * 64 + (0x80 + x / 4096 % 64) % 64) * 64 +
      (0x80 + x / 64 % 64) % 64) * 64 + (0x80 + x % 64) % 64 = x := by omega
  rw [a5, codeUnits, if_neg (by omega)]
  have a6 : 0xD800 + (x - 0x10000) / 1024 = u := by omega
  have a7 : 0xDC00 + (x - 0x10000) % 1024 = l := by omega
  rw [a6, a7]
  rfl

theorem utf8Decode_utf8Encode : ∀ s : JSString, wellFormed s = true →
    utf8Decode (utf8Encode s) = s := by
  intro s
  unfold utf8Decode
  induction s using utf8Encode.induct with
  | case1 => intro _; rfl
  | case2 u =>
    intro h
    have := decode_encodeUnit u [] (by simpa [wellFormed] using h)
    simpa [utf8Encode, utf8DecodeFrom, DecState.init] using this
  | case3 u l rest hpair ih =>
    intro h
    rw [wellFormed, if_pos hpair] at h
    rw [utf8Encode_pair u l rest hpair, decode_encodePair u l _ hpair, ih h]
  | case4 u l rest hpair ih =>
    intro h
    rw [wellFormed, if_neg hpair, Bool.and_eq_true] at h
    rw [utf8Encode_not_pair u l rest hpair, decode_encodeUnit u _ h.1, ih h.2]

theorem matchFirst_skip (m : JSString → Option JSString) (y : JSString) :
    ∀ x : JSString, (∀ x', x' ≠ [] → x' <:+ x → m (x' ++ y) = none) →
      matchFirst m (x ++ y) = matchFirst m y
  | [], _ => rfl
  | c :: x, h => by
    have h0 := h (c :: x) (by simp) (List.suffix_refl _)
    rw [List.cons_append] at h0 ⊢
    rw [matchFirst, h0]
    exact matchFirst_skip m y x (fun x' hx' hs => h x' hx' (hs.trans (List.suffix_cons c x)))

theorem matchFirst_cons_none (m : JSString → Option JSString) (c : Nat) (s : JSString)
    (h : m (c :: s) = none) : matchFirst m (c :: s) = matchFirst m s := by
  rw [matchFirst, h]

theorem matchFirst_cons_some (m : JSString → Option JSString) (c : Nat) (s r : JSString)
    (h : m (c :: s) = some r) : matchFirst m (c :: s) = some r := by
  rw [matchFirst, h]

theorem quotedAt_of_not_pfx (key s : JSString) (h : ¬ key <+: s) : quotedAt key s = none := by
  simp [quotedAt, h]

theorem lineAt_of_not_pfx (key s : JSString) (h : ¬ key <+: s) : lineAt key s = none := by
  simp [lineAt, h]

theorem takeWhile_append_stop (q : Nat → Bool) (v : List Nat) (d : Nat) (tail : List Nat)
    (hv : ∀ u ∈ v, q u = true) (hd : q d = false) :
    (v ++ d :: tail).takeWhile q = v := by
  induction v with
  | nil => simp [List.takeWhile, hd]
  | cons a v ih =>
    rw [List.cons_append, List.takeWhile_cons, if_pos (hv a (by simp)),
      ih (fun u hu => hv u (by simp [hu]))]

theorem quotedAt_key_append (key v tail : JSString) (hv : 34 ∉ v) (hne : v ≠ []) :
    quotedAt key (key ++ (v ++ 34 :: tail)) = some v := by
  have ht : (v ++ 34 :: tail).takeWhile (fun c => decide (c ≠ 34)) = v :=
    takeWhile_append_stop _ v 34 tail (fun u hu => by
      have : u ≠ 34 := fun h => hv (h ▸ hu)
      simpa using this) (by simp)
  simp only [quotedAt, List.isPrefixOf_iff_prefix, List.prefix_append, if_true,
    List.drop_left, ht]
  simp [hne]

theorem lineAt_key_append (key v : JSString) (h13 : 13 ∉ v) (h10 : 10 ∉ v) (hne : v ≠ []) :
    lineAt key (key ++ v) = some v := by
  have ht : v.takeWhile (fun c => decide (c ≠ 13 ∧ c ≠ 10)) = v := by
    rw [List.takeWhile_eq_self_iff]
    intro u hu
    have a : u ≠ 13 := fun h => h13 (h ▸ hu)
    have b : u ≠ 10 := fun h => h10 (h ▸ hu)
    simp [a, b]
  simp only [lineAt, List.isPrefixOf_iff_prefix, List.prefix_append, if_true, List.drop_left, ht]
  simp [hne]

/-- A key without the character `d` that starts `x ++ d :: tail` lies inside `x`. -/
theorem pfx_of_pfx_append_stop (d : Nat) (tail : List Nat) :
    ∀ (key x : List Nat), d ∉ key → key <+: x ++ d :: tail → key <+: x
  | [], x, _, _ => List.nil_prefix
  | c :: key, [], hd, h => by
    rw [List.nil_append, List.cons_prefix_cons] at h
    exact absurd h.1.symm (fun e => hd (by simp [e]))
  | c :: key, a :: x, hd, h => by
    rw [List.cons_append, List.cons_prefix_cons] at h
    rw [List.cons_prefix_cons]
    exact ⟨h.1, pfx_of_pfx_append_stop d tail key x (fun hm => hd (by simp [hm])) h.2⟩

/-- A key `k ++ [d]` that starts `x ++ d :: tail`, where `d` is neither in `k` nor in `x`, ends
exactly where `x` ends. -/
theorem eq_of_pfx_append_stop (d : Nat) (tail : List Nat) :
    ∀ (k x : List Nat), d ∉ k → d ∉ x → k ++ [d] <+: x ++ d :: tail → x = k
  | [], [], _, _, _ => rfl
  | [], a :: x, _, hx, h => by
    rw [List.nil_append, List.cons_append, List.cons_prefix_cons] at h
    exact absurd h.1 (fun e => hx (by simp [e]))
  | c :: k, [], hk, _, h => by
    rw [List.nil_append, List.cons_append, List.cons_prefix_cons] at h
    exact absurd h.1.symm (fun e => hk (by simp [e]))
  | c :: k, a :: x, hk, hx, h => by
    rw [List.cons_append, List.cons_append, List.cons_prefix_cons] at h
    rw [h.1, eq_of_pfx_append_stop d tail k x (fun hm => hk (by simp [hm]))
      (fun hm => hx (by simp [hm])) h.2]

theorem nameMatch_header (N tail : JSString) (hq : 34 ∉ N) (hne : N ≠ []) :
    nameMatch (str "Content-Disposition: form-data; name=\"" ++ (N ++ 34 :: tail)) = some N := by
  rw [str_disposition, nameMatch]
  simp only [List.cons_append, List.nil_append]
  iterate 32 rw [matchFirst_cons_none _ _ _ (quotedAt_of_not_pfx _ _ (by simp))]
  exact matchFirst_cons_some _ _ _ _ (quotedAt_key_append [110, 97, 109, 101, 61, 34] N tail hq hne)

theorem filenameMatch_skip_disposition (rest : JSString) :
    filenameMatch (str "Content-Disposition: form-data; name=\"" ++ rest) =
      matchFirst (quotedAt [102, 105, 108, 101, 110, 97, 109, 101, 61, 34]) rest := by
  rw [str_disposition, filenameMatch]
  simp only [List.cons_append, List.nil_append]
  iterate 38 rw [matchFirst_cons_none _ _ _ (quotedAt_of_not_pfx _ _ (by simp))]

theorem contentTypeMatch_skip_disposition (rest : JSString) :
    contentTypeMatch (str "Content-Disposition: form-data; name=\"" ++ rest) =
      matchFirst (lineAt [67, 111, 110, 116, 101, 110, 116, 45, 84, 121, 112, 101, 58, 32]) rest := by
  rw [str_disposition, contentTypeMatch]
  simp only [List.cons_append, List.nil_append]
  iterate 38 rw [matchFirst_cons_none _ _ _ (lineAt_of_not_pfx _ _ (by simp))]

theorem not_mem_of_suffix {x' x : List Nat} {d : Nat} (h : x' <:+ x) (hd : d ∉ x) : d ∉ x' :=
  fun hm => hd (h.subset hm)

theorem filenameMatch_some (N F tail : JSString) (hN : 34 ∉ N)
    (hend : ¬ [102, 105, 108, 101, 110, 97, 109, 101, 61] <:+ N) (hF : 34 ∉ F) (hne : F ≠ []) :
    filenameMatch (str "Content-Disposition: form-data; name=\"" ++
      (N ++ 34 :: 59 :: 32 :: ([102, 105, 108, 101, 110, 97, 109, 101, 61, 34] ++ (F ++ 34 :: tail))))
      = some F := by
  rw [filenameMatch_skip_disposition, matchFirst_skip]
  · iterate 3 rw [matchFirst_cons_none _ _ _ (quotedAt_of_not_pfx _ _ (by simp))]
    exact matchFirst_cons_some _ _ _ _ (quotedAt_key_append _ F tail hF hne)
  · intro x' _ hs
    apply quotedAt_of_not_pfx
    intro hp
    have := eq_of_pfx_append_stop 34 _ [102, 105, 108, 101, 110, 97, 109, 101, 61] x'
      (by decide) (not_mem_of_suffix hs hN) hp
    exact hend (this ▸ hs)

theorem filenameMatch_none (N : JSString) (hN : 34 ∉ N) :
    filenameMatch (str "Content-Disposition: form-data; name=\"" ++ (N ++ [34])) = none := by
  rw [filenameMatch_skip_disposition, matchFirst_skip]
  · decide
  · intro x' _ hs
    by_cases hp : [102, 105, 108, 101, 110, 97, 109, 101, 61, 34] <+: x' ++ [34]
    · have := eq_of_pfx_append_stop 34 [] [102, 105, 108, 101, 110, 97, 109, 101, 61] x'
        (by decide) (not_mem_of_suffix hs hN) hp
      subst this
      decide
    · exact quotedAt_of_not_pfx _ _ hp

theorem lineAt_none_in_run (key x' x tail : JSString) (hk : 34 ∉ key) (hx : ¬ key <:+: x)
    (hs : x' <:+ x) : lineAt key (x' ++ 34 :: tail) = none := by
  apply lineAt_of_not_pfx
  intro hp
  have := pfx_of_pfx_append_stop 34 tail key x' hk hp
  exact hx (List.infix_iff_prefix_suffix.2 ⟨x', this, hs⟩)

theorem contentTypeMatch_none_filename (N F : JSString)
    (hN : ¬ [67, 111, 110, 116, 101, 110, 116, 45, 84, 121, 112, 101, 58, 32] <:+: N)
    (hF : ¬ [67, 111, 110, 116, 101, 110, 116, 45, 84, 121, 112, 101, 58, 32] <:+: F) :
    contentTypeMatch (str "Content-Disposition: form-data; name=\"" ++
      (N ++ 34 :: 59 :: 32 :: 102 :: 105 :: 108 :: 101 :: 110 :: 97 :: 109 :: 101 :: 61 :: 34 ::
        (F ++ [34]))) = none := by
  rw [contentTypeMatch_skip_disposition, matchFirst_skip]
  · iterate 13 rw [matchFirst_cons_none _ _ _ (lineAt_of_not_pfx _ _ (by simp))]
    rw [matchFirst_skip]
    · decide
    · intro x' _ hs
      exact lineAt_none_in_run _ x' F _ (by decide) hF hs
  · intro x' _ hs
    exact lineAt_none_in_run _ x' N _ (by decide) hN hs

theorem contentTypeMatch_none (N : JSString)
    (hN : ¬ [67, 111, 110, 116, 101, 110, 116, 45, 84, 121, 112, 101, 58, 32] <:+: N) :
    contentTypeMatch (str "Content-Disposition: form-data; name=\"" ++ (N ++ [34])) = none := by
  rw [contentTypeMatch_skip_disposition, matchFirst_skip]
  · decide
  · intro x' _ hs
    exact lineAt_none_in_run _ x' N _ (by decide) hN hs

theorem findIdx_skip (c : Nat) (v Y : Buffer) :
    ∀ X : Buffer, c ∉ X → findIdx (c :: v) (X ++ Y) = (findIdx (c :: v) Y).map (· + X.length)
  | [], _ => by simp
  | a :: X, h => by
    have hne : ¬ (c :: v) <+: a :: (X ++ Y) := by
      rw [List.cons_prefix_cons]
      intro hc
      exact h (by simp [hc.1])
    rw [List.cons_append, findIdx]
    simp only [List.isPrefixOf_iff_prefix, hne, if_false]
    rw [findIdx_skip c v Y X (fun hm => h (by simp [hm]))]
    cases findIdx (c :: v) Y <;> simp [Nat.add_assoc]

theorem findIdx_self_append (v Y : Buffer) : findIdx v (v ++ Y) = some 0 := by
  rw [findIdx_eq_some_iff]
  simp

theorem mem_utf8Encode_of_lt (b : Nat) (hb : b < 0x80) :
    ∀ s : JSString, b ∈ utf8Encode s → b ∈ s := by
  intro s
  have unit : ∀ u, b ∈ encodeUnit u → b = u := by
    intro u hu
    unfold encodeUnit at hu
    split_ifs at hu <;> simp at hu <;> omega
  induction s using utf8Encode.induct with
  | case1 => simp [utf8Encode]
  | case2 u =>
    intro h
    rw [utf8Encode] at h
    simp [unit u h]
  | case3 u l rest hpair ih =>
    intro h
    rw [utf8Encode_pair u l rest hpair, List.mem_append] at h
    rcases h with h | h
    · simp [encodePair] at h
      omega
    · simp [ih h]
  | case4 u l rest hpair ih =>
    intro h
    rw [utf8Encode_not_pair u l rest hpair, List.mem_append] at h
    rcases h with h | h
    · simp [unit u h]
    · exact List.mem_cons_of_mem _ (ih h)

theorem not_mem_utf8Encode (b : Nat) (hb : b < 0x80) (s : JSString) (h : b ∉ s) :
    b ∉ utf8Encode s :=
  fun hm => h (mem_utf8Encode_of_lt b hb s hm)

theorem utf8Encode_append_cons_of_lt (s t : JSString) (c : Nat) (hc : c < 0x80) :
    utf8Encode (s ++ c :: t) = utf8Encode s ++ c :: utf8Encode t := by
  rw [utf8Encode_append_cons c t (by omega) s, utf8Encode_cons_of_lt c t hc]

theorem wellFormed_cons_of_lt (u : Nat) (s : JSString) (hu : u < 0x80) :
    wellFormed (u :: s) = wellFormed s := by
  have hs : isScalarUnit u = true := by simp [isScalarUnit]; omega
  cases s with
  | nil => simp [wellFormed, hs]
  | cons l rest =>
    have h : ¬ ((0xD800 ≤ u ∧ u ≤ 0xDBFF) ∧ (0xDC00 ≤ l ∧ l ≤ 0xDFFF)) := by omega
    rw [wellFormed, if_neg h, hs, Bool.true_and]

theorem wellFormed_ascii_append (a s : JSString) (ha : ∀ u ∈ a, u < 0x80) :
    wellFormed (a ++ s) = wellFormed s := by
  induction a with
  | nil => rfl
  | cons u a ih =>
    rw [List.cons_append, wellFormed_cons_of_lt _ _ (ha u (by simp)),
      ih (fun v hv => ha v (by simp [hv]))]

theorem parsePart_of_sep (hb data : Buffer)
    (h : findIdx crlfcrlf (hb ++ crlfcrlf ++ data) = some hb.length) :
    parsePart (hb ++ crlfcrlf ++ data) =
      match nameMatch (utf8Decode hb) with
      | some name => some ⟨name, filenameMatch (utf8Decode hb), contentTypeMatch (utf8Decode hb), data⟩
      | none => none := by
  have hidx : indexOf (hb ++ crlfcrlf ++ data) crlfcrlf 0 = (hb.length : Int) := by
    have := indexOf_natCast (hb ++ crlfcrlf ++ data) crlfcrlf 0 (by omega)
    simp only [Nat.cast_zero, List.drop_zero, h, Nat.zero_add] at this
    exact this
  unfold parsePart
  simp only [hidx]
  have hne : ¬ ((hb.length : Int) = -1) := by omega
  have h1 : slice (hb ++ crlfcrlf ++ data) 0 (hb.length : Int) = hb := by
    have := slice_natCast (hb ++ crlfcrlf ++ data) 0 hb.length
    simp only [Nat.cast_zero, List.drop_zero, Nat.sub_zero] at this
    rw [this, List.append_assoc, List.take_left]
  have h2 : slice (hb ++ crlfcrlf ++ data) ((hb.length : Int) + 4)
      ((hb ++ crlfcrlf ++ data).length : Int) = data := by
    have hc : ((hb.length : Int) + 4) = ((hb.length + 4 : Nat) : Int) := by push_cast; ring
    rw [hc, slice_natCast]
    have : hb.length + 4 = (hb ++ crlfcrlf).length := by simp [crlfcrlf]
    rw [this, List.drop_left, List.take_of_length_le (by simp; omega)]
  simp only [ne_eq, hne, not_false_eq_true, if_true, h1, h2]

theorem str_content_type_line : str "\r\nContent-Type: " =
    [13, 10, 67, 111, 110, 116, 101, 110, 116, 45, 84, 121, 112, 101, 58, 32] := by decide
theorem str_filename_eq : str "filename=" = [102, 105, 108, 101, 110, 97, 109, 101, 61] := by
  decide

theorem truthy_iff (o : Option JSString) :
    truthy o = true ↔ o = some (o.getD []) ∧ o.getD [] ≠ [] := by
  cases o with
  | none => simp [truthy]
  | some s => cases s <;> simp [truthy]

theorem headerText_of_no_filename (p : Part) (h : truthy p.filename = false) :
    headerText p = str "Content-Disposition: form-data; name=\"" ++ (p.name ++ [34]) := by
  simp [headerText, h, str_quote]

theorem headerText_of_filename (p : Part) (h : truthy p.filename = true)
    (hc : truthy p.contentType = false) :
    headerText p = str "Content-Disposition: form-data; name=\"" ++
      (p.name ++ 34 :: 59 :: 32 :: 102 :: 105 :: 108 :: 101 :: 110 :: 97 :: 109 :: 101 :: 61 :: 34 ::
        (p.filename.getD [] ++ [34])) := by
  simp [headerText, h, hc, str_quote, str_filename]

theorem headerText_of_contentType (p : Part) (h : truthy p.filename = true)
    (hc : truthy p.contentType = true) :
    headerText p = str "Content-Disposition: form-data; name=\"" ++
      (p.name ++ 34 :: 59 :: 32 :: 102 :: 105 :: 108 :: 101 :: 110 :: 97 :: 109 :: 101 :: 61 :: 34 ::
        (p.filename.getD [] ++ 34 :: 13 :: 10 ::
          ([67, 111, 110, 116, 101, 110, 116, 45, 84, 121, 112, 101, 58, 32] ++
            p.contentType.getD []))) := by
  simp [headerText, h, hc, str_quote, str_filename, str_content_type_line]

/-- A pattern without the character `d` that occurs in `X ++ d :: Y` occurs in `X` or in `Y`. -/
theorem infix_split (d : Nat) (v X Y : List Nat) (hd : d ∉ v) (h : v <:+: X ++ d :: Y) :
    v <:+: X ∨ v <:+: Y := by
  obtain ⟨j, _, hj⟩ := (infix_iff_exists_drop _ _).1 h
  by_cases hjx : j ≤ X.length
  · left
    rw [List.drop_append_of_le_length hjx] at hj
    have := pfx_of_pfx_append_stop d Y v (X.drop j) hd hj
    exact List.infix_iff_prefix_suffix.2 ⟨_, this, List.drop_suffix j X⟩
  · right
    have e : j = (X ++ [d]).length + (j - X.length - 1) := by simp; omega
    have e2 : X ++ d :: Y = (X ++ [d]) ++ Y := by simp
    rw [e2, e, List.drop_append] at hj
    exact List.infix_iff_prefix_suffix.2 ⟨_, hj, List.drop_suffix _ Y⟩

theorem encodeUnit_ge (u : Nat) (hu : ¬ u < 0x80) : ∀ b ∈ encodeUnit u, 0x80 ≤ b := by
  intro b hb
  unfold encodeUnit at hb
  split_ifs at hb <;> simp at hb <;> omega

theorem encodePair_ge (u l : Nat) : ∀ b ∈ encodePair u l, 0x80 ≤ b := by
  intro b hb
  simp [encodePair] at hb
  omega

theorem encodeUnit_of_lt (u : Nat) (hu : u < 0x80) : encodeUnit u = [u] := by
  simp [encodeUnit, hu]

theorem encodeUnit_ne_nil (u : Nat) : encodeUnit u ≠ [] := by
  unfold encodeUnit
  split_ifs <;> simp

/-- An ASCII pattern does not begin inside bytes that are all `0x80` or above. -/
theorem infix_of_infix_high_append (v X Y : List Nat) (hv : ∀ a ∈ v, a < 0x80)
    (hX : ∀ b ∈ X, 0x80 ≤ b) (h : v <:+: X ++ Y) : v <:+: Y := by
  induction X with
  | nil => simpa using h
  | cons b X ih =>
    rw [List.cons_append, List.infix_cons_iff] at h
    rcases h with h | h
    · cases v with
      | nil => exact List.nil_infix
      | cons a v =>
        rw [List.cons_prefix_cons] at h
        have h1 := hv a (by simp)
        have h2 := hX b (by simp)
        omega
    · exact ih (fun c hc => hX c (by simp [hc])) h

theorem pfx_of_pfx_utf8Encode : ∀ (v : List Nat), (∀ a ∈ v, a < 0x80) →
    ∀ s : JSString, v <+: utf8Encode s → v <+: s
  | [], _, _, _ => List.nil_prefix
  | a :: v, hv, s, h => by
    have ha := hv a (by simp)
    cases s with
    | nil => simp [utf8Encode] at h
    | cons u rest =>
      by_cases hu : u < 0x80
      · rw [utf8Encode_cons_of_lt u rest hu, List.cons_prefix_cons] at h
        rw [List.cons_prefix_cons]
        exact ⟨h.1, pfx_of_pfx_utf8Encode v (fun c hc => hv c (by simp [hc])) rest h.2⟩
      · exfalso
        have key : ∀ (X Y : List Nat), X ≠ [] → (∀ b ∈ X, 0x80 ≤ b) → ¬ (a :: v <+: X ++ Y) := by
          intro X Y hne hX hp
          cases X with
          | nil => exact hne rfl
          | cons b X =>
            rw [List.cons_append, List.cons_prefix_cons] at hp
            have := hX b (by simp)
            omega
        cases rest with
        | nil =>
          rw [utf8Encode] at h
          exact key (encodeUnit u) [] (encodeUnit_ne_nil u) (encodeUnit_ge u hu) (by simpa using h)
        | cons l rest =>
          by_cases hpair : (0xD800 ≤ u ∧ u ≤ 0xDBFF) ∧ (0xDC00 ≤ l ∧ l ≤ 0xDFFF)
          · rw [utf8Encode_pair u l rest hpair] at h
            exact key _ _ (by simp [encodePair]) (encodePair_ge u l) h
          · rw [utf8Encode_not_pair u l rest hpair] at h
            exact key _ _ (encodeUnit_ne_nil u) (encodeUnit_ge u hu) h

/-- An ASCII pattern that occurs in the UTF-8 encoding of a string occurs in the string. -/
theorem infix_of_infix_utf8Encode (v : List Nat) (hv : ∀ a ∈ v, a < 0x80) :
    ∀ s : JSString, v <:+: utf8Encode s → v <:+: s := by
  intro s
  induction s using utf8Encode.induct with
  | case1 => intro h; simpa [utf8Encode] using h
  | case2 u =>
    intro h
    by_cases hu : u < 0x80
    · rwa [utf8Encode_cons_of_lt u [] hu] at h
    · rw [utf8Encode] at h
      have := infix_of_infix_high_append v (encodeUnit u) [] hv (encodeUnit_ge u hu) (by simpa using h)
      exact this.trans (List.nil_infix)
  | case3 u l rest hpair ih =>
    intro h
    rw [utf8Encode_pair u l rest hpair] at h
    have := ih (infix_of_infix_high_append v _ _ hv (encodePair_ge u l) h)
    exact this.trans (List.suffix_cons_iff.2 (Or.inr (List.suffix_cons l rest))).isInfix
  | case4 u l rest hpair ih =>
    intro h
    by_cases hu : u < 0x80
    · have h' := h
      rw [utf8Encode_cons_of_lt u _ hu, List.infix_cons_iff] at h
      rcases h with h | h
      · have : v <+: utf8Encode (u :: l :: rest) := by
          rw [utf8Encode_cons_of_lt u _ hu]; exact h
        exact (pfx_of_pfx_utf8Encode v hv _ this).isInfix
      · exact (ih h).trans (List.suffix_cons u _).isInfix
    · rw [utf8Encode_not_pair u l rest hpair] at h
      have := ih (infix_of_infix_high_append v _ _ hv (encodeUnit_ge u hu) h)
      exact this.trans (List.suffix_cons u _).isInfix

theorem mem_disposition_lt : ∀ u ∈ str "Content-Disposition: form-data; name=\"", u < 0x80 := by
  decide

theorem str_crlfcrlf : str "\r\n\r\n" = [13, 10, 13, 10] := by decide
theorem str_filename_tail : str "; filename=" =
    [59, 32, 102, 105, 108, 101, 110, 97, 109, 101, 61] := by decide

/-- The header/body separator is found right after the header bytes `hb` when it does not
begin inside them. -/
theorem sep_of_not_infix (hb data : Buffer) (h : ¬ crlfcrlf <:+: hb ++ [13, 10, 13]) :
    findIdx crlfcrlf (hb ++ crlfcrlf ++ data) = some hb.length := by
  rw [findIdx_eq_some_iff]
  refine ⟨by simp, by simp [List.append_assoc], ?_⟩
  intro j hj hc
  apply h
  have e : hb ++ crlfcrlf ++ data = (hb ++ [13, 10, 13]) ++ (10 :: data) := by
    simp [crlfcrlf]
  rw [e, occ_append_iff _ _ _ _ (by simp [crlfcrlf]; omega)] at hc
  exact List.infix_iff_prefix_suffix.2 ⟨_, hc, List.drop_suffix j _⟩

/-- A pattern does not begin inside a run that lacks its first character. -/
theorem infix_of_infix_append_of_head_not_mem (c : Nat) (v X Y : List Nat) (hc : c ∉ X)
    (h : c :: v <:+: X ++ Y) : c :: v <:+: Y := by
  induction X with
  | nil => simpa using h
  | cons b X ih =>
    rw [List.cons_append, List.infix_cons_iff] at h
    rcases h with h | h
    · rw [List.cons_prefix_cons] at h
      exact absurd h.1 (fun e => hc (by simp [e]))
    · exact ih (fun hm => hc (by simp [hm])) h

theorem takeWhile_append_of_stop (q : Nat → Bool) (d : Nat) (t : List Nat) (hd : q d = false) :
    ∀ a : List Nat, (a ++ d :: t).takeWhile q = a.takeWhile q
  | [] => by simp [List.takeWhile, hd]
  | x :: a => by
    rw [List.cons_append, List.takeWhile_cons, List.takeWhile_cons,
      takeWhile_append_of_stop q d t hd a]

theorem lineAt_append_stop (key x rest : JSString) (hk : 13 ∉ key) :
    lineAt key (x ++ 13 :: rest) = lineAt key x := by
  by_cases hp : key <+: x
  · have hp' : key <+: x ++ 13 :: rest := hp.trans (List.prefix_append _ _)
    have hl := hp.length_le
    simp only [lineAt, List.isPrefixOf_iff_prefix, hp, hp', if_true]
    rw [List.drop_append_of_le_length hl, takeWhile_append_of_stop _ 13 rest (by simp)]
  · have hp' : ¬ key <+: x ++ 13 :: rest := fun h => hp (pfx_of_pfx_append_stop 13 rest key x hk h)
    rw [lineAt_of_not_pfx _ _ hp, lineAt_of_not_pfx _ _ hp']

theorem matchFirst_lineAt_append_of_some (key rest : JSString) (hk : 13 ∉ key) (c : JSString) :
    ∀ L : JSString, matchFirst (lineAt key) L = some c →
      matchFirst (lineAt key) (L ++ 13 :: rest) = some c
  | [], h => by
    have : lineAt key [] = none := by
      cases key <;> simp [lineAt]
    rw [matchFirst, this] at h
    exact absurd h (by simp)
  | a :: L, h => by
    rw [List.cons_append, matchFirst]
    rw [matchFirst] at h
    have e := lineAt_append_stop key (a :: L) rest hk
    rw [List.cons_append] at e
    rw [e]
    cases hm : lineAt key (a :: L) with
    | some r => rw [hm] at h; exact h
    | none =>
      rw [hm] at h
      exact matchFirst_lineAt_append_of_some key rest hk c L h

theorem matchFirst_lineAt_append_of_none (key rest : JSString) (hk : 13 ∉ key) :
    ∀ L : JSString, matchFirst (lineAt key) L = none →
      matchFirst (lineAt key) (L ++ 13 :: rest) = matchFirst (lineAt key) (13 :: rest)
  | [], _ => rfl
  | a :: L, h => by
    rw [List.cons_append, matchFirst]
    rw [matchFirst] at h
    have e := lineAt_append_stop key (a :: L) rest hk
    rw [List.cons_append] at e
    rw [e]
    cases hm : lineAt key (a :: L) with
    | some r => rw [hm] at h; exact absurd h (by simp)
    | none =>
      rw [hm] at h
      exact matchFirst_lineAt_append_of_none key rest hk L h

theorem contentTypeMatch_line (C : JSString) (h13 : 13 ∉ C) (h10 : 10 ∉ C) (hne : C ≠ []) :
    matchFirst (lineAt [67, 111, 110, 116, 101, 110, 116, 45, 84, 121, 112, 101, 58, 32])
      (13 :: 10 :: ([67, 111, 110, 116, 101, 110, 116, 45, 84, 121, 112, 101, 58, 32] ++ C)) =
      some C := by
  iterate 2 rw [matchFirst_cons_none _ _ _ (lineAt_of_not_pfx _ _ (by simp))]
  exact matchFirst_cons_some _ _ _ _ (lineAt_key_append _ C h13 h10 hne)

/-- When the name ends with `filename=`, the filename pattern matches there and captures
`; filename=`. -/
theorem filenameMatch_at_name_end (N0 rest : JSString) (hN : 34 ∉ N0) :
    filenameMatch (str "Content-Disposition: form-data; name=\"" ++
      ((N0 ++ [102, 105, 108, 101, 110, 97, 109, 101, 61]) ++ 34 :: 59 :: 32 :: 102 :: 105 ::
        108 :: 101 :: 110 :: 97 :: 109 :: 101 :: 61 :: 34 :: rest)) =
      some [59, 32, 102, 105, 108, 101, 110, 97, 109, 101, 61] := by
  rw [filenameMatch_skip_disposition, List.append_assoc, matchFirst_skip]
  · exact matchFirst_cons_some _ _ _ _
      (quotedAt_key_append [102, 105, 108, 101, 110, 97, 109, 101, 61, 34]
        [59, 32, 102, 105, 108, 101, 110, 97, 109, 101, 61] rest (by decide) (by decide))
  · intro x' hx' hs
    apply quotedAt_of_not_pfx
    intro hp
    have h34 : 34 ∉ x' ++ [102, 105, 108, 101, 110, 97, 109, 101, 61] := by
      rw [List.mem_append, not_or]
      exact ⟨not_mem_of_suffix hs hN, by decide⟩
    have e : x' ++ ([102, 105, 108, 101, 110, 97, 109, 101, 61] ++ 34 :: 59 :: 32 :: 102 :: 105 ::
        108 :: 101 :: 110 :: 97 :: 109 :: 101 :: 61 :: 34 :: rest) =
        (x' ++ [102, 105, 108, 101, 110, 97, 109, 101, 61]) ++ 34 :: 59 :: 32 :: 102 :: 105 ::
        108 :: 101 :: 110 :: 97 :: 109 :: 101 :: 61 :: 34 :: rest := by simp
    rw [e] at hp
    have := eq_of_pfx_append_stop 34 _ [102, 105, 108, 101, 110, 97, 109, 101, 61] _
      (by decide) h34 hp
    have hl := congrArg List.length this
    simp at hl
    exact hx' hl

theorem firstLine_of_no_filename (p : Part) (h : truthy p.filename = false) :
    firstLine p = str "Content-Disposition: form-data; name=\"" ++ (p.name ++ [34]) := by
  simp [firstLine, h, str_quote]

theorem firstLine_of_filename (p : Part) (h : truthy p.filename = true) :
    firstLine p = str "Content-Disposition: form-data; name=\"" ++
      (p.name ++ 34 :: 59 :: 32 :: 102 :: 105 :: 108 :: 101 :: 110 :: 97 :: 109 :: 101 :: 61 :: 34 ::
        (p.filename.getD [] ++ [34])) := by
  simp [firstLine, h, str_quote, str_filename]

theorem headerText_eq_firstLine (p : Part) :
    headerText p = firstLine p ++
      (if truthy p.filename = true ∧ truthy p.contentType = true then
        13 :: 10 :: ([67, 111, 110, 116, 101, 110, 116, 45, 84, 121, 112, 101, 58, 32] ++
          p.contentType.getD [])
      else []) := by
  cases hfn : truthy p.filename <;> cases hct : truthy p.contentType <;>
    simp [headerText, firstLine, hfn, hct, str_quote, str_filename, str_content_type_line]

theorem mem_firstLine_lt (p : Part) (hN : ∀ u ∈ p.name, u < 0x80)
    (hF : truthy p.filename = true → ∀ u ∈ p.filename.getD [], u < 0x80) :
    ∀ u ∈ firstLine p, u < 0x80 := by
  intro u hu
  cases hfn : truthy p.filename
  · rw [firstLine_of_no_filename p hfn] at hu
    simp only [List.mem_append, List.mem_singleton] at hu
    rcases hu with hu | hu | hu
    · exact mem_disposition_lt u hu
    · exact hN u hu
    · omega
  · rw [firstLine_of_filename p hfn] at hu
    simp only [List.mem_append, List.mem_cons, List.mem_singleton] at hu
    rcases hu with hu | hu | hu
    · exact mem_disposition_lt u hu
    · exact hN u hu
    · rcases hu with hu | hu | hu | hu | hu | hu | hu | hu | hu | hu | hu | hu | hu | hu
      any_goals omega
      rcases hu with hu | hu
      · exact hF hfn u hu
      · simp at hu; omega

theorem str_disposition_split : str "Content-Disposition: form-data; name=\"" =
    str "Content-Disposition: form-data; name=" ++ [34] := by decide

theorem not_sep_disposition :
    ¬ crlfcrlf <:+: str "Content-Disposition: form-data; name=" := by decide

theorem not_sep_filename_attr :
    ¬ crlfcrlf <:+: ([59, 32, 102, 105, 108, 101, 110, 97, 109, 101, 61] : List Nat) := by decide

/-- The separator does not begin inside the `Content-Disposition` line of a part whose name and
filename do not contain it. -/
theorem sep_after_firstLine (p : Part) (X : Buffer) (hN : ¬ crlfcrlf <:+: p.name)
    (hF : truthy p.filename = true → ¬ crlfcrlf <:+: p.filename.getD [])
    (h : crlfcrlf <:+: firstLine p ++ X) : crlfcrlf <:+: X := by
  have q34 : 34 ∉ crlfcrlf := by decide
  cases hfn : truthy p.filename
  · rw [firstLine_of_no_filename p hfn, str_disposition_split] at h
    have e : str "Content-Disposition: form-data; name=" ++ [34] ++ (p.name ++ [34]) ++ X =
        str "Content-Disposition: form-data; name=" ++ 34 :: (p.name ++ 34 :: X) := by simp
    rw [e] at h
    rcases infix_split 34 _ _ _ q34 h with h | h
    · exact absurd h not_sep_disposition
    · rcases infix_split 34 _ _ _ q34 h with h | h
      · exact absurd h hN
      · exact h
  · rw [firstLine_of_filename p hfn, str_disposition_split] at h
    have e : str "Content-Disposition: form-data; name=" ++ [34] ++ (p.name ++
        34 :: 59 :: 32 :: 102 :: 105 :: 108 :: 101 :: 110 :: 97 :: 109 :: 101 :: 61 :: 34 ::
          (p.filename.getD [] ++ [34])) ++ X =
        str "Content-Disposition: form-data; name=" ++ 34 :: (p.name ++ 34 ::
          ([59, 32, 102, 105, 108, 101, 110, 97, 109, 101, 61] ++ 34 ::
            (p.filename.getD [] ++ 34 :: X))) := by simp
    rw [e] at h
    rcases infix_split 34 _ _ _ q34 h with h | h
    · exact absurd h not_sep_disposition
    · rcases infix_split 34 _ _ _ q34 h with h | h
      · exact absurd h hN
      · rcases infix_split 34 _ _ _ q34 h with h | h
        · exact absurd h not_sep_filename_attr
        · rcases infix_split 34 _ _ _ q34 h with h | h
          · exact absurd h (hF hfn)
          · exact h

theorem filenameMatch_written (N F tail : JSString) (hN : 34 ∉ N) (hF : 34 ∉ F) (hne : F ≠ [])
    (hend : [102, 105, 108, 101, 110, 97, 109, 101, 61] <:+ N →
      F = [59, 32, 102, 105, 108, 101, 110, 97, 109, 101, 61]) :
    filenameMatch (str "Content-Disposition: form-data; name=\"" ++
      (N ++ 34 :: 59 :: 32 :: 102 :: 105 :: 108 :: 101 :: 110 :: 97 :: 109 :: 101 :: 61 :: 34 ::
        (F ++ 34 :: tail))) = some F := by
  by_cases he : [102, 105, 108, 101, 110, 97, 109, 101, 61] <:+ N
  · obtain ⟨N0, rfl⟩ := he
    rw [filenameMatch_at_name_end N0 _ (fun hm => hN (by simp [hm])), hend ⟨N0, rfl⟩]
  · exact filenameMatch_some N F tail hN he hF hne

theorem parsePart_partBody (p : Part) (h : p.HeaderSafe) :
    parsePart (partBody p) = some (roundTripped p) := by
  obtain ⟨hne, hN, hNsep, hf, hcm⟩ := h
  rw [str_crlfcrlf] at hNsep
  have hNq : 34 ∉ p.name := fun hm => (hN 34 hm).2 rfl
  have hL : ∀ u ∈ firstLine p, u < 0x80 :=
    mem_firstLine_lt p (fun u hu => (hN u hu).1) (fun hfn u hu => ((hf hfn).1 u hu).1)
  have hkey : ∀ u ∈ ([67, 111, 110, 116, 101, 110, 116, 45, 84, 121, 112, 101, 58, 32] :
      List Nat), u < 0x80 := by decide
  have hsepL : ∀ X, crlfcrlf <:+: firstLine p ++ X → crlfcrlf <:+: X := fun X hX =>
    sep_after_firstLine p X hNsep (fun hfn => by
      have := (hf hfn).2.1
      rw [str_crlfcrlf] at this
      exact this) hX
  -- the name
  have hname : nameMatch (headerText p) = some p.name := by
    cases hfn : truthy p.filename
    · rw [headerText_of_no_filename p hfn]
      exact nameMatch_header _ _ hNq hne
    · cases hct : truthy p.contentType
      · rw [headerText_of_filename p hfn hct]
        exact nameMatch_header _ _ hNq hne
      · rw [headerText_of_contentType p hfn hct]
        exact nameMatch_header _ _ hNq hne
  -- the filename
  have hfile : filenameMatch (headerText p) = (roundTripped p).filename := by
    cases hfn : truthy p.filename
    · rw [headerText_of_no_filename p hfn, filenameMatch_none _ hNq]
      simp [roundTripped, hfn]
    · obtain ⟨hF, _, hend, _⟩ := hf hfn
      rw [str_filename_eq, str_filename_tail] at hend
      have hFq : 34 ∉ p.filename.getD [] := fun hm => (hF 34 hm).2 rfl
      have hFne := ((truthy_iff _).1 hfn).2
      have hr : (roundTripped p).filename = some (p.filename.getD []) := by
        simp [roundTripped, hfn, ((truthy_iff _).1 hfn).1.symm]
      rw [hr]
      cases hct : truthy p.contentType
      · rw [headerText_of_filename p hfn hct]
        exact filenameMatch_written _ _ [] hNq hFq hFne hend
      · rw [headerText_of_contentType p hfn hct]
        exact filenameMatch_written _ _ _ hNq hFq hFne hend
  -- the content type, the encoding and the separator
  by_cases hw : truthy p.filename = true ∧ truthy p.contentType = true
  · obtain ⟨hCwf, hC13, hC10⟩ := (hf hw.1).2.2.2 hw.2
    have hCne := ((truthy_iff _).1 hw.2).2
    have hH := headerText_eq_firstLine p
    rw [if_pos hw] at hH
    have hctm : contentTypeMatch (headerText p) = (roundTripped p).contentType := by
      have hr : (roundTripped p).contentType = p.contentType := by
        simp [roundTripped, hw.1, hw.2]
      rw [hr, hH, contentTypeMatch]
      cases hm : matchFirst (lineAt [67, 111, 110, 116, 101, 110, 116, 45, 84, 121, 112, 101, 58, 32])
        (firstLine p) with
      | some c =>
        rw [matchFirst_lineAt_append_of_some _ _ (by decide) c _ hm]
        exact (hcm c (by rw [contentTypeMatch, hm]; rfl)).2.2.symm
      | none =>
        rw [matchFirst_lineAt_append_of_none _ _ (by decide) _ hm,
          contentTypeMatch_line _ hC13 hC10 hCne]
        exact ((truthy_iff _).1 hw.2).1.symm
    have henc : utf8Encode (headerText p) = firstLine p ++ 13 :: 10 ::
        ([67, 111, 110, 116, 101, 110, 116, 45, 84, 121, 112, 101, 58, 32] ++
          utf8Encode (p.contentType.getD [])) := by
      rw [hH, utf8Encode_append_cons_of_lt _ _ 13 (by omega), utf8Encode_ascii _ hL,
        utf8Encode_cons_of_lt 10 _ (by omega), utf8Encode_ascii_append _ _ hkey]
    have hwf : wellFormed (headerText p) = true := by
      rw [hH, wellFormed_ascii_append _ _ hL, wellFormed_cons_of_lt 13 _ (by omega),
        wellFormed_cons_of_lt 10 _ (by omega), wellFormed_ascii_append _ _ hkey]
      exact hCwf
    have hsep : findIdx crlfcrlf (utf8Encode (headerText p) ++ crlfcrlf ++ p.data) =
        some (utf8Encode (headerText p)).length := by
      apply sep_of_not_infix
      intro hc
      rw [henc, List.append_assoc] at hc
      have h1 := hsepL _ hc
      have e : (13 :: 10 :: ([67, 111, 110, 116, 101, 110, 116, 45, 84, 121, 112, 101, 58, 32] ++
          utf8Encode (p.contentType.getD [])) ++ [13, 10, 13] : List Nat) =
          [13, 10] ++ 67 :: (([111, 110, 116, 101, 110, 116, 45, 84, 121, 112, 101, 58, 32] ++
            utf8Encode (p.contentType.getD [])) ++ [13, 10, 13]) := by simp
      rw [e] at h1
      rcases infix_split 67 _ _ _ (by decide) h1 with h1 | h1
      · exact absurd h1 (by decide)
      · have h13 : 13 ∉ [111, 110, 116, 101, 110, 116, 45, 84, 121, 112, 101, 58, 32] ++
            utf8Encode (p.contentType.getD []) := by
          rw [List.mem_append, not_or]
          exact ⟨by decide, not_mem_utf8Encode 13 (by omega) _ hC13⟩
        have h2 := infix_of_infix_append_of_head_not_mem 13 [10, 13, 10] _ _ h13 h1
        exact absurd h2 (by decide)
    rw [partBody, parsePart_of_sep _ _ hsep, utf8Decode_utf8Encode _ hwf, hname, hfile, hctm]
    rfl
  · have hH := headerText_eq_firstLine p
    rw [if_neg hw, List.append_nil] at hH
    have hctm : contentTypeMatch (headerText p) = (roundTripped p).contentType := by
      have hr : (roundTripped p).contentType = none := by
        cases hfn : truthy p.filename <;> cases hct : truthy p.contentType <;>
          simp_all [roundTripped]
      rw [hr, hH]
      cases hm : contentTypeMatch (firstLine p) with
      | none => rfl
      | some c => exact absurd ⟨(hcm c (by rw [hm]; rfl)).1, (hcm c (by rw [hm]; rfl)).2.1⟩ hw
    have henc : utf8Encode (headerText p) = firstLine p := by
      rw [hH, utf8Encode_ascii _ hL]
    have hwf : wellFormed (headerText p) = true := by
      rw [hH]
      have := wellFormed_ascii_append (firstLine p) [] hL
      simpa [wellFormed] using this
    have hsep : findIdx crlfcrlf (utf8Encode (headerText p) ++ crlfcrlf ++ p.data) =
        some (utf8Encode (headerText p)).length := by
      apply sep_of_not_infix
      intro hc
      rw [henc] at hc
      exact absurd (hsepL _ hc) (by decide)
    rw [partBody, parsePart_of_sep _ _ hsep, utf8Decode_utf8Encode _ hwf, hname, hfile, hctm]
    rfl

theorem utf8Encode_crlf_between (X Y : JSString) :
    utf8Encode (X ++ 13 :: 10 :: Y) = utf8Encode X ++ 13 :: 10 :: utf8Encode Y := by
  rw [utf8Encode_append_cons_of_lt _ _ 13 (by omega), utf8Encode_cons_of_lt 10 _ (by omega)]

theorem specBlock_eq_partBody (B : JSString) (p : Part) :
    specBlock truthy B p = boundaryBuffer B ++ [13, 10] ++ partBody p ++ [13, 10] := by
  unfold specBlock specLine partBody headerText crlfcrlf boundaryBuffer
  simp only [str_dashes, str_quote, str_filename, str_filename_attr, str_content_type_line,
    str_content_type]
  cases hfn : truthy p.filename
  · simp [List.append_assoc]
  · cases hct : truthy p.contentType
    · simp [List.append_assoc]
    · simp only [if_true, Bool.and_self, List.append_assoc, List.cons_append, List.nil_append]
      have : str "Content-Disposition: form-data; name=\"" ++ (p.name ++
          34 :: 59 :: 32 :: 102 :: 105 :: 108 :: 101 :: 110 :: 97 :: 109 :: 101 :: 61 :: 34 ::
            (p.filename.getD [] ++ 34 :: 13 :: 10 :: 67 :: 111 :: 110 :: 116 :: 101 :: 110 ::
              116 :: 45 :: 84 :: 121 :: 112 :: 101 :: 58 :: 32 :: p.contentType.getD [])) =
          (str "Content-Disposition: form-data; name=\"" ++ (p.name ++
            34 :: 59 :: 32 :: 102 :: 105 :: 108 :: 101 :: 110 :: 97 :: 109 :: 101 :: 61 :: 34 ::
              (p.filename.getD [] ++ [34]))) ++ 13 :: 10 :: (67 :: 111 :: 110 :: 116 :: 101 ::
                110 :: 116 :: 45 :: 84 :: 121 :: 112 :: 101 :: 58 :: 32 :: p.contentType.getD []) := by
        simp
      rw [this, utf8Encode_crlf_between]
      simp [List.append_assoc]

theorem buildMultipart_eq_afterDelimiter (parts : List Part) (B : JSString) :
    buildMultipart parts B = boundaryBuffer B ++ afterDelimiter B parts := by
  rw [buildMultipart_eq_spec, specEncode]
  induction parts with
  | nil =>
    simp only [List.flatMap_nil, List.nil_append, specLine, afterDelimiter, str_dashes,
      boundaryBuffer]
    rw [utf8Encode_append_ascii _ [45, 45] (by decide)]
    simp
  | cons p ps ih =>
    rw [List.flatMap_cons, List.append_assoc, ih, specBlock_eq_partBody, afterDelimiter]
    simp [List.append_assoc]

theorem findIdx_append_of_some (v X Y : Buffer) (i : Nat) (h : findIdx v X = some i) :
    findIdx v (X ++ Y) = some i := by
  obtain ⟨h1, h2, h3⟩ := (findIdx_eq_some_iff v X i).1 h
  have hl := h2.length_le
  simp only [List.length_drop] at hl
  rw [findIdx_eq_some_iff]
  refine ⟨by simp; omega, (occ_append_iff v X Y i (by omega)).2 h2, ?_⟩
  intro j hj hc
  exact h3 j hj ((occ_append_iff v X Y j (by omega)).1 hc)

theorem not_infix_crlf (B : JSString) : ¬ boundaryBuffer B <:+: [13, 10] := by
  intro h
  have hl := h.length_le
  have hb := boundaryBuffer_length B
  have := h.eq_of_length (by simp at hl ⊢; omega)
  rw [boundaryBuffer_eq] at this
  simp at this

theorem findIdx_of_delimiterSafe (B : JSString) (p : Part) (h : p.DelimiterSafe B) (T : Buffer) :
    findIdx (boundaryBuffer B) (partBody p ++ [13, 10] ++ boundaryBuffer B ++ T) =
      some ((partBody p).length + 2) := by
  apply findIdx_append_of_some
  unfold Part.DelimiterSafe at h
  have := indexOf_natCast (partBody p ++ [13, 10] ++ boundaryBuffer B) (boundaryBuffer B) 0
    (by omega)
  simp only [Nat.cast_zero, List.drop_zero, Nat.zero_add] at this
  rw [h] at this
  cases hf : findIdx (boundaryBuffer B) (partBody p ++ [13, 10] ++ boundaryBuffer B) with
  | none => rw [hf] at this; simp at this; omega
  | some i =>
    rw [hf] at this
    simp only [Nat.cast_inj] at this
    rw [this]

theorem parseLoop_afterDelimiter (B : JSString) : ∀ (ps : List Part) (pre : Buffer) (f : Nat),
    (∀ p ∈ ps, p.HeaderSafe ∧ p.DelimiterSafe B) →
    (pre ++ boundaryBuffer B ++ afterDelimiter B ps).length ≤
      (pre.length + (boundaryBuffer B).length + 2) + f →
    ∃ steps, parseLoop (pre ++ boundaryBuffer B ++ afterDelimiter B ps) (boundaryBuffer B) f
        ((pre.length + (boundaryBuffer B).length + 2 : Nat) : Int) = some steps ∧
      steps.filterMap Step.pushed = ps.map roundTripped := by
  intro ps
  induction ps with
  | nil =>
    intro pre f _ hf
    simp only [afterDelimiter, List.length_append, List.length_cons, List.length_nil] at hf
    cases f with
    | zero => omega
    | succ f =>
      refine ⟨[], ?_, rfl⟩
      apply parseLoop_of_not_found
      rw [indexOf_eq_neg_one_iff _ _ _ (by simp [afterDelimiter]; omega)]
      have e1 : pre ++ boundaryBuffer B ++ afterDelimiter B [] =
          (pre ++ boundaryBuffer B ++ [45, 45]) ++ [13, 10] := by simp [afterDelimiter]
      have e2 : pre.length + (boundaryBuffer B).length + 2 =
          (pre ++ boundaryBuffer B ++ [45, 45]).length := by simp; omega
      rw [e1, e2, List.drop_left]
      exact not_infix_crlf B
  | cons p ps ih =>
    intro pre f hsafe hf
    obtain ⟨hH, hD⟩ := hsafe p (by simp)
    have e1 : pre ++ boundaryBuffer B ++ afterDelimiter B (p :: ps) =
        (pre ++ boundaryBuffer B ++ [13, 10]) ++
          (partBody p ++ [13, 10] ++ boundaryBuffer B ++ afterDelimiter B ps) := by
      simp [afterDelimiter, List.append_assoc]
    have e2 : pre.length + (boundaryBuffer B).length + 2 =
        (pre ++ boundaryBuffer B ++ [13, 10]).length := by simp; omega
    have e3 : pre ++ boundaryBuffer B ++ afterDelimiter B (p :: ps) =
        (pre ++ boundaryBuffer B ++ [13, 10] ++ partBody p ++ [13, 10]) ++ boundaryBuffer B ++
          afterDelimiter B ps := by
      simp [afterDelimiter, List.append_assoc]
    have hlen : (pre ++ boundaryBuffer B ++ afterDelimiter B (p :: ps)).length =
        pre.length + (boundaryBuffer B).length + 2 + (partBody p).length + 2 +
          (boundaryBuffer B).length + (afterDelimiter B ps).length := by
      rw [e3]; simp; omega
    have hTpos : 2 ≤ (afterDelimiter B ps).length := by
      cases ps <;> simp [afterDelimiter]
    have hidx : indexOf (pre ++ boundaryBuffer B ++ afterDelimiter B (p :: ps)) (boundaryBuffer B)
        ((pre.length + (boundaryBuffer B).length + 2 : Nat) : Int) =
        ((pre.length + (boundaryBuffer B).length + 2 + (partBody p).length + 2 : Nat) : Int) := by
      rw [indexOf_natCast _ _ _ (by omega)]
      conv_lhs => rw [e1, e2, List.drop_left, findIdx_of_delimiterSafe B p hD]
      simp only [Nat.cast_inj, List.length_append, List.length_cons, List.length_nil]
      omega
    cases f with
    | zero => omega
    | succ f =>
      rw [parseLoop_of_found _ _ f _ _ (by omega) hidx (by omega)]
      have hnext : (((pre.length + (boundaryBuffer B).length + 2 + (partBody p).length + 2 : Nat) : Int)
          + ((boundaryBuffer B).length : Int) + 2) =
          (((pre ++ boundaryBuffer B ++ [13, 10] ++ partBody p ++ [13, 10]).length +
            (boundaryBuffer B).length + 2 : Nat) : Int) := by
        simp only [List.length_append, List.length_cons, List.length_nil]
        push_cast
        ring
      have hslice : slice (pre ++ boundaryBuffer B ++ afterDelimiter B (p :: ps))
          ((pre.length + (boundaryBuffer B).length + 2 : Nat) : Int)
          (((pre.length + (boundaryBuffer B).length + 2 + (partBody p).length + 2 : Nat) : Int) - 2)
          = partBody p := by
        have hc : (((pre.length + (boundaryBuffer B).length + 2 + (partBody p).length + 2 : Nat) : Int)
            - 2) = ((pre.length + (boundaryBuffer B).length + 2 + (partBody p).length : Nat) : Int) := by
          omega
        rw [hc, slice_natCast]
        conv_lhs => rw [e1, e2, List.drop_left]
        have : (pre ++ boundaryBuffer B ++ [13, 10]).length + (partBody p).length -
            (pre ++ boundaryBuffer B ++ [13, 10]).length = (partBody p).length := by omega
        rw [this, List.append_assoc, List.append_assoc, List.take_left]
      obtain ⟨steps, hs, hpushed⟩ := ih (pre ++ boundaryBuffer B ++ [13, 10] ++ partBody p ++ [13, 10])
        f (fun q hq => hsafe q (by simp [hq])) (by
          rw [← e3, hlen]
          simp only [List.length_append, List.length_cons, List.length_nil]
          omega)
      rw [hnext, e3, hs]
      refine ⟨_, rfl, ?_⟩
      rw [← e3, hslice, List.filterMap_cons]
      simp only [parsePart_partBody p hH, List.map_cons, hpushed]

theorem parseMultipart_buildMultipart_of_safe (parts : List Part) (B : JSString)
    (h : ∀ p ∈ parts, p.HeaderSafe ∧ p.DelimiterSafe B) :
    parseMultipart (buildMultipart parts B) B = some (parts.map roundTripped) := by
  rw [buildMultipart_eq_afterDelimiter]
  have hidx : indexOf (boundaryBuffer B ++ afterDelimiter B parts) (boundaryBuffer B) 0 = 0 := by
    have := (indexOf_eq_natCast_iff (boundaryBuffer B ++ afterDelimiter B parts) (boundaryBuffer B)
      0 0 (by omega)).2 ⟨by omega, by omega, by simp, by intro j _ hj; omega⟩
    simpa using this
  obtain ⟨steps, hs, hpushed⟩ := parseLoop_afterDelimiter B parts [] 
    ((boundaryBuffer B ++ afterDelimiter B parts).length + 1) h (by simp; omega)
  simp only [List.nil_append, List.length_nil, Nat.zero_add] at hs
  have hcast : (0 : Int) + ((boundaryBuffer B).length : Int) + 2 =
      (((boundaryBuffer B).length + 2 : Nat) : Int) := by push_cast; ring
  rw [parseMultipart, parseSteps, hidx, hcast, hs]
  simp [hpushed]

/-- C1, as amended: `parseMultipart (buildMultipart parts B) B` gives the parts back in order,
each with its name and data unchanged, an empty filename or content type read as absent and
the content type absent unless both filename and content type were written (`roundTripped`),
provided every part has safe header fields (`Part.HeaderSafe`: a non-empty name; no
CR LF CR LF in the name or in a written filename; a name that does not end with `filename=`
next to a written filename other than `; filename=`; a written content type that is well-formed
UTF-16 without CR or LF; no match of the content-type pattern in the `Content-Disposition`
line other than one capturing the written content type) and no occurrence of `--B` begins
inside what is written for it (`Part.DelimiterSafe`). -/
theorem round_trip_of_safe (parts : List Part) (boundary : JSString)
    (h : ∀ p ∈ parts, p.HeaderSafe ∧ p.DelimiterSafe boundary) :
    parseMultipart (buildMultipart parts boundary) boundary = some (parts.map roundTripped) :=
  parseMultipart_buildMultipart_of_safe parts boundary h

set_option maxRecDepth 4000 in
theorem round_trip_of_safe_witness :
    (∀ p ∈ sampleParts, p.HeaderSafe ∧ p.DelimiterSafe (str "XyZ")) ∧
    parseMultipart (buildMultipart sampleParts (str "XyZ")) (str "XyZ") =
      some (sampleParts.map roundTripped) :=
  ⟨by decide, round_trip_of_safe sampleParts (str "XyZ") (by decide)⟩

/-- C1, as stated, fails: each of these parts has an ASCII name and filename without quote,
and is not read back as it was.  With boundary `x`: data that contains `--x` (nothing comes
back); an empty name (the part is dropped); a name containing CR LF CR LF (the part is
dropped); a filename containing CR LF CR LF (the filename is lost and the data is wrong); a
name containing `Content-Type: ` (a content type appears); a filename containing
`Content-Type: ` (a content type appears); a name ending with `filename=` next to a filename
(the filename is misread); a content type containing LF, or CR (it is cut); a content type
that is an unpaired surrogate (read back as U+FFFD); an empty filename, or an empty content
type (read back as absent). -/
theorem round_trip_counterexample :
    parseMultipart (buildMultipart [⟨str "a", none, none, str "--x"⟩] (str "x")) (str "x") =
      some [] ∧
    parseMultipart (buildMultipart [⟨[], none, none, str "hi"⟩] (str "x")) (str "x") = some [] ∧
    parseMultipart (buildMultipart [⟨str "a\r\n\r\nb", none, none, str "hi"⟩] (str "x")) (str "x") =
      some [] ∧
    parseMultipart (buildMultipart [⟨str "a", some (str "f\r\n\r\ng"), none, str "hi"⟩] (str "x"))
        (str "x") = some [⟨str "a", none, none, str "g\"\r\n\r\nhi"⟩] ∧
    parseMultipart (buildMultipart [⟨str "Content-Type: t", none, none, str "hi"⟩] (str "x"))
        (str "x") = some [⟨str "Content-Type: t", none, some (str "t\""), str "hi"⟩] ∧
    parseMultipart (buildMultipart [⟨str "a", some (str "Content-Type: t"), none, str "hi"⟩]
        (str "x")) (str "x") =
      some [⟨str "a", some (str "Content-Type: t"), some (str "t\""), str "hi"⟩] ∧
    parseMultipart (buildMultipart [⟨str "filename=", some (str "f"), none, str "hi"⟩] (str "x"))
        (str "x") = some [⟨str "filename=", some (str "; filename="), none, str "hi"⟩] ∧
    parseMultipart (buildMultipart [⟨str "a", some (str "f"), some (str "t\nu"), str "hi"⟩]
        (str "x")) (str "x") = some [⟨str "a", some (str "f"), some (str "t"), str "hi"⟩] ∧
    parseMultipart (buildMultipart [⟨str "a", some (str "f"), some (str "t\ru"), str "hi"⟩]
        (str "x")) (str "x") = some [⟨str "a", some (str "f"), some (str "t"), str "hi"⟩] ∧
    parseMultipart (buildMultipart [⟨str "a", some (str "f"), some [0xD800], str "hi"⟩]
        (str "x")) (str "x") = some [⟨str "a", some (str "f"), some [0xFFFD], str "hi"⟩] ∧
    parseMultipart (buildMultipart [⟨str "a", some [], none, str "hi"⟩] (str "x")) (str "x") =
      some [⟨str "a", none, none, str "hi"⟩] ∧
    parseMultipart (buildMultipart [⟨str "a", some (str "f"), some [], str "hi"⟩] (str "x"))
        (str "x") = some [⟨str "a", some (str "f"), none, str "hi"⟩] := by
  decide

theorem isAlnum_facts (u : Nat) (h : isAlnum u = true) :
    u < 0x80 ∧ u ≠ 34 ∧ u ≠ 13 ∧ u ≠ 10 ∧ u ≠ 45 ∧ u ≠ 61 ∧ u ≠ 32 ∧ u ≠ 46 := by
  simp only [isAlnum, decide_eq_true_eq] at h
  omega

theorem boundaryBuffer_of_alnum (B : JSString) (hB : ∀ u ∈ B, isAlnum u = true) :
    boundaryBuffer B = [45, 45] ++ B := by
  rw [boundaryBuffer_eq, utf8Encode_ascii B (fun u hu => (isAlnum_facts u (hB u hu)).1)]
  rfl

theorem not_mem_delim (B : JSString) (hB : ∀ u ∈ B, isAlnum u = true) (d : Nat)
    (hd : d ≠ 45) (hd2 : isAlnum d = false) : d ∉ [45, 45] ++ B := by
  intro hm
  simp only [List.cons_append, List.nil_append, List.mem_cons] at hm
  rcases hm with hm | hm | hm
  · exact hd hm
  · exact hd hm
  · rw [hB d hm] at hd2
    exact absurd hd2 (by simp)

theorem not_infix_of_dash (B X : JSString) (h : 45 ∉ X) : ¬ ([45, 45] ++ B) <:+: X :=
  fun hi => h (hi.subset (by simp))

theorem not_infix_of_dashes (B X : JSString) (h : ¬ [45, 45] <:+: X) :
    ¬ ([45, 45] ++ B) <:+: X :=
  fun hi => h ((List.prefix_append [45, 45] B).isInfix.trans hi)

theorem delim_ne_nil (B : JSString) : ¬ ([45, 45] ++ B) <:+: [] := by
  intro h
  have := List.eq_nil_of_infix_nil h
  simp at this

theorem not_dashes_disposition :
    ¬ [45, 45] <:+: str "Content-Disposition: form-data; name=" := by decide

theorem not_dashes_filename_attr :
    ¬ [45, 45] <:+: ([59, 32, 102, 105, 108, 101, 110, 97, 109, 101, 61] : List Nat) := by decide

theorem not_dashes_content_type_key :
    ¬ [45, 45] <:+: ([67, 111, 110, 116, 101, 110, 116, 45, 84, 121, 112, 101, 58] : List Nat) := by
  decide

theorem delim_not_in_headerText (B : JSString) (p : Part) (hB : ∀ u ∈ B, isAlnum u = true)
    (hp : p.Plain B) : ¬ ([45, 45] ++ B) <:+: headerText p := by
  obtain ⟨⟨_, hN⟩, hF, hC, _⟩ := hp
  have q34 : 34 ∉ [45, 45] ++ B := not_mem_delim B hB 34 (by decide) (by decide)
  have q13 : 13 ∉ [45, 45] ++ B := not_mem_delim B hB 13 (by decide) (by decide)
  have q10 : 10 ∉ [45, 45] ++ B := not_mem_delim B hB 10 (by decide) (by decide)
  have q32 : 32 ∉ [45, 45] ++ B := not_mem_delim B hB 32 (by decide) (by decide)
  have hN45 : 45 ∉ p.name := fun hm => (isAlnum_facts 45 (hN 45 hm)).2.2.2.2.1 rfl
  have hD := not_infix_of_dashes B _ not_dashes_disposition
  intro h
  cases hfn : truthy p.filename
  · rw [headerText_of_no_filename p hfn, str_disposition_split, List.append_assoc,
      List.singleton_append] at h
    rcases infix_split 34 _ _ _ q34 h with h | h
    · exact hD h
    · rcases infix_split 34 _ _ _ q34 h with h | h
      · exact not_infix_of_dash B _ hN45 h
      · exact delim_ne_nil B h
  · have hfs := ((truthy_iff _).1 hfn).1
    obtain ⟨_, hFc⟩ := hF _ hfs
    have hF45 : 45 ∉ p.filename.getD [] := by
      intro hm
      rcases hFc 45 hm with h1 | h1
      · exact (isAlnum_facts 45 h1).2.2.2.2.1 rfl
      · omega
    cases hct : truthy p.contentType
    · rw [headerText_of_filename p hfn hct, str_disposition_split, List.append_assoc,
        List.singleton_append] at h
      rcases infix_split 34 _ _ _ q34 h with h | h
      · exact hD h
      · rcases infix_split 34 _ _ _ q34 h with h | h
        · exact not_infix_of_dash B _ hN45 h
        · have e : (59 :: 32 :: 102 :: 105 :: 108 :: 101 :: 110 :: 97 :: 109 :: 101 :: 61 :: 34 ::
              (p.filename.getD [] ++ [34]) : List Nat) =
              [59, 32, 102, 105, 108, 101, 110, 97, 109, 101, 61] ++ 34 ::
                (p.filename.getD [] ++ [34]) := rfl
          rw [e] at h
          rcases infix_split 34 _ _ _ q34 h with h | h
          · exact not_infix_of_dashes B _ not_dashes_filename_attr h
          · rcases infix_split 34 _ _ _ q34 h with h | h
            · exact not_infix_of_dash B _ hF45 h
            · exact delim_ne_nil B h
    · have hcs := ((truthy_iff _).1 hct).1
      obtain ⟨_, _, _, hCd⟩ := hC _ hcs
      rw [headerText_of_contentType p hfn hct, str_disposition_split, List.append_assoc,
        List.singleton_append] at h
      rcases infix_split 34 _ _ _ q34 h with h | h
      · exact hD h
      · rcases infix_split 34 _ _ _ q34 h with h | h
        · exact not_infix_of_dash B _ hN45 h
        · have e : (59 :: 32 :: 102 :: 105 :: 108 :: 101 :: 110 :: 97 :: 109 :: 101 :: 61 :: 34 ::
              (p.filename.getD [] ++ 34 :: 13 :: 10 ::
                ([67, 111, 110, 116, 101, 110, 116, 45, 84, 121, 112, 101, 58, 32] ++
                  p.contentType.getD [])) : List Nat) =
              [59, 32, 102, 105, 108, 101, 110, 97, 109, 101, 61] ++ 34 ::
                (p.filename.getD [] ++ 34 :: ([] ++ 13 :: ([] ++ 10 ::
                  ([67, 111, 110, 116, 101, 110, 116, 45, 84, 121, 112, 101, 58] ++ 32 ::
                    p.contentType.getD [])))) := rfl
          rw [e] at h
          rcases infix_split 34 _ _ _ q34 h with h | h
          · exact not_infix_of_dashes B _ not_dashes_filename_attr h
          · rcases infix_split 34 _ _ _ q34 h with h | h
            · exact not_infix_of_dash B _ hF45 h
            · rcases infix_split 13 _ _ _ q13 h with h | h
              · exact delim_ne_nil B h
              · rcases infix_split 10 _ _ _ q10 h with h | h
                · exact delim_ne_nil B h
                · rcases infix_split 32 _ _ _ q32 h with h | h
                  · exact not_infix_of_dashes B _ not_dashes_content_type_key h
                  · exact hCd h

theorem delimiterSafe_of_plain (B : JSString) (p : Part) (hB : ∀ u ∈ B, isAlnum u = true)
    (hp : p.Plain B) : p.DelimiterSafe B := by
  have hbb := boundaryBuffer_of_alnum B hB
  have hdata : ¬ ([45, 45] ++ B) <:+: p.data := by rw [← hbb]; exact hp.2.2.2
  have q13 : 13 ∉ [45, 45] ++ B := not_mem_delim B hB 13 (by decide) (by decide)
  have q10 : 10 ∉ [45, 45] ++ B := not_mem_delim B hB 10 (by decide) (by decide)
  have hascii : ∀ a ∈ [45, 45] ++ B, a < 0x80 := by
    intro a ha
    simp only [List.cons_append, List.nil_append, List.mem_cons] at ha
    rcases ha with ha | ha | ha
    · omega
    · omega
    · exact (isAlnum_facts a (hB a ha)).1
  have hbody : ¬ ([45, 45] ++ B) <:+: partBody p := by
    intro h
    have e : partBody p = utf8Encode (headerText p) ++ 13 :: ([] ++ 10 :: ([] ++ 13 ::
        ([] ++ 10 :: p.data))) := by
      simp [partBody, crlfcrlf]
    rw [e] at h
    rcases infix_split 13 _ _ _ q13 h with h | h
    · exact delim_not_in_headerText B p hB hp (infix_of_infix_utf8Encode _ hascii _ h)
    · rcases infix_split 10 _ _ _ q10 h with h | h
      · exact delim_ne_nil B h
      · rcases infix_split 13 _ _ _ q13 h with h | h
        · exact delim_ne_nil B h
        · rcases infix_split 10 _ _ _ q10 h with h | h
          · exact delim_ne_nil B h
          · exact hdata h
  unfold Part.DelimiterSafe
  rw [hbb]
  have := (indexOf_eq_natCast_iff (partBody p ++ [13, 10] ++ ([45, 45] ++ B)) ([45, 45] ++ B) 0
    ((partBody p).length + 2) (by omega)).2 ⟨by omega, by simp, ?_, ?_⟩
  · simpa using this
  · have e : (partBody p).length + 2 = (partBody p ++ [13, 10]).length := by simp
    rw [e, List.drop_left]
  · intro j _ hj hc
    by_cases hjb : j ≤ (partBody p).length
    · have e : partBody p ++ [13, 10] ++ ([45, 45] ++ B) =
          partBody p ++ 13 :: (10 :: ([45, 45] ++ B)) := by simp
      rw [e, List.drop_append_of_le_length hjb] at hc
      have := pfx_of_pfx_append_stop 13 _ _ _ q13 hc
      exact hbody (List.infix_iff_prefix_suffix.2 ⟨_, this, List.drop_suffix j _⟩)
    · have hj' : j = (partBody p ++ [13]).length := by simp; omega
      have e : partBody p ++ [13, 10] ++ ([45, 45] ++ B) =
          (partBody p ++ [13]) ++ (10 :: ([45, 45] ++ B)) := by simp
      rw [e, hj', List.drop_left] at hc
      simp at hc

theorem headerSafe_of_plain (B : JSString) (p : Part) (hp : p.Plain B)
    (hwf : p.filename.isSome = true → ∀ c ∈ p.contentType, wellFormed c = true) :
    p.HeaderSafe := by
  obtain ⟨⟨hne, hN⟩, hF, hC, _⟩ := hp
  have key45 : 45 ∈ str "Content-Type: " := by decide
  have key61 : 61 ∈ str "filename=" := by decide
  have key13 : 13 ∈ str "\r\n\r\n" := by decide
  have hNct : ¬ [67, 111, 110, 116, 101, 110, 116, 45, 84, 121, 112, 101, 58, 32] <:+: p.name := by
    intro h
    rw [← str_content_type] at h
    exact (isAlnum_facts 45 (hN 45 (h.subset key45))).2.2.2.2.1 rfl
  refine ⟨hne, fun u hu => ?_, fun h => ?_, fun hfn => ?_, fun c hc => ?_⟩
  · have := isAlnum_facts u (hN u hu)
    exact ⟨this.1, this.2.1⟩
  · exact (isAlnum_facts 13 (hN 13 (h.subset key13))).2.2.1 rfl
  · have hfs := ((truthy_iff _).1 hfn).1
    obtain ⟨_, hFc⟩ := hF _ hfs
    refine ⟨fun u hu => ?_, fun h => ?_, fun h => ?_, fun hct => ?_⟩
    · rcases hFc u hu with h1 | h1
      · have := isAlnum_facts u h1
        exact ⟨this.1, this.2.1⟩
      · omega
    · rcases hFc 13 (h.subset key13) with h1 | h1
      · exact (isAlnum_facts 13 h1).2.2.1 rfl
      · omega
    · exact absurd rfl (isAlnum_facts 61 (hN 61 (h.subset key61))).2.2.2.2.2.1
    · have hcs := ((truthy_iff _).1 hct).1
      obtain ⟨_, h13, h10, _⟩ := hC _ hcs
      exact ⟨hwf (by rw [hfs]; rfl) _ hcs, h13, h10⟩
  · exfalso
    cases hfn : truthy p.filename
    · rw [firstLine_of_no_filename p hfn, contentTypeMatch_none _ hNct] at hc
      simp at hc
    · have hfs := ((truthy_iff _).1 hfn).1
      obtain ⟨_, hFc⟩ := hF _ hfs
      have hFct : ¬ [67, 111, 110, 116, 101, 110, 116, 45, 84, 121, 112, 101, 58, 32] <:+:
          p.filename.getD [] := by
        intro h
        rw [← str_content_type] at h
        rcases hFc 45 (h.subset key45) with h1 | h1
        · exact (isAlnum_facts 45 h1).2.2.2.2.1 rfl
        · omega
      rw [firstLine_of_filename p hfn, contentTypeMatch_none_filename _ _ hNct hFct] at hc
      simp at hc

theorem roundTripped_of_plain (B : JSString) (p : Part) (hp : p.Plain B) :
    roundTripped p = gateContentType p := by
  obtain ⟨_, hF, hC, _⟩ := hp
  obtain ⟨name, filename, contentType, data⟩ := p
  cases filename with
  | none => simp [roundTripped, gateContentType, truthy]
  | some f =>
    have hf := (hF f rfl).1
    cases contentType with
    | none => cases f <;> simp_all [roundTripped, gateContentType, truthy]
    | some c =>
      have hc := (hC c rfl).1
      cases f <;> cases c <;> simp_all [roundTripped, gateContentType, truthy]

/-- C4, as amended: for a boundary of ASCII letters and digits and parts with plain fields
(`Part.Plain`) whose content type, when the filename is present, is well-formed UTF-16 (no
unpaired surrogate), `parseMultipart (buildMultipart parts B) B` is the sequence of the parts
in order, each with its name, filename and data unchanged and its content type kept when the
filename is present and absent otherwise. -/
theorem binary_safe_round_trip (parts : List Part) (boundary : JSString)
    (hB : ∀ u ∈ boundary, isAlnum u = true)
    (h : ∀ p ∈ parts, p.Plain boundary ∧
      (p.filename.isSome = true → ∀ c ∈ p.contentType, wellFormed c = true)) :
    parseMultipart (buildMultipart parts boundary) boundary = some (parts.map gateContentType) := by
  rw [parseMultipart_buildMultipart_of_safe parts boundary (fun p hp =>
    ⟨headerSafe_of_plain boundary p (h p hp).1 (h p hp).2,
      delimiterSafe_of_plain boundary p hB (h p hp).1⟩)]
  congr 1
  apply List.map_congr_left
  intro p hp
  exact roundTripped_of_plain boundary p (h p hp).1

set_option maxRecDepth 4000 in
theorem binary_safe_round_trip_witness :
    (∀ u ∈ str "XyZ", isAlnum u = true) ∧
    (∀ p ∈ samplePlainParts, p.Plain (str "XyZ") ∧
      (p.filename.isSome = true → ∀ c ∈ p.contentType, wellFormed c = true)) ∧
    parseMultipart (buildMultipart samplePlainParts (str "XyZ")) (str "XyZ") =
      some (samplePlainParts.map gateContentType) :=
  ⟨by decide, by decide,
    binary_safe_round_trip samplePlainParts (str "XyZ") (by decide) (by decide)⟩

/-- C4, as stated, fails: with boundary `x`, the part named `a` with filename `f` and the
content type made of the single unpaired surrogate U+D800 meets every hypothesis, and its
content type is read back as U+FFFD. -/
theorem binary_safe_round_trip_counterexample :
    (∀ u ∈ str "x", isAlnum u = true) ∧
    (⟨str "a", some (str "f"), some [0xD800], str "hi"⟩ : Part).Plain (str "x") ∧
    buildMultipart [⟨str "a", some (str "f"), some [0xD800], str "hi"⟩] (str "x") =
      utf8Encode (str "--x\r\nContent-Disposition: form-data; name=\"a\"; filename=\"f\"\r\n") ++
        utf8Encode (str "Content-Type: ") ++ [0xEF, 0xBF, 0xBD] ++
        utf8Encode (str "\r\n\r\nhi\r\n--x--\r\n") ∧
    parseMultipart (buildMultipart [⟨str "a", some (str "f"), some [0xD800], str "hi"⟩] (str "x"))
      (str "x") = some [⟨str "a", some (str "f"), some [0xFFFD], str "hi"⟩] ∧
    parseMultipart (buildMultipart [⟨str "a", some (str "f"), some [0xD800], str "hi"⟩] (str "x"))
      (str "x") ≠ some ([(⟨str "a", some (str "f"), some [0xD800], str "hi"⟩ : Part)].map
        gateContentType) := by
  decide

end Polyfun
